import Mathlib

/-!
# Progressive file comparator of `dedupe` (src/file_cmp.cc)

A shallow embedding of `file_cmp_t::lazy_hash`, `file_cmp_t::open_file`,
`file_cmp_t::close_file` and `file_cmp_t::operator<=>`, with the facts about
block sizing, caching and the three-way comparison that follow from the code.

Modelling conventions
* Bytes, sizes, counters and digest halves are natural numbers; the one place
  where 64-bit wrap-around can be observed (`hash_blk_sz << (idx - 1)` and the
  offset `size - _remain_sz`) is reduced modulo `2 ^ 64` explicitly.
* The xxHash library is external.  A hasher is the list of bytes folded into it
  so far and the digest is an uninterpreted function of that list (the seed is a
  constant), passed in the environment together with the scratch-buffer length
  and the file-system identity test `std::filesystem::equivalent`.
* A comparator carries the bytes its stream delivers (`data`), which may be
  fewer than the recorded size: that is how a read falls short.
* Two counters record effects of the code that have no other trace in the
  state: `io_reads` counts the calls of `_file_stream.read`, `cerr_lines` the
  `[err] read error` lines written.
* A computation either returns (`Except.ok`) or fails with a `fault`: the read
  loop does not terminate (only when the buffer length is zero), or a vector is
  indexed past its end.
* Allocation and hash-engine exceptions are not modelled, and the two operands
  of a comparison are two objects.
* `sample_xxh` and the sample files serve the evaluations at concrete inputs
  only; every general theorem holds for an arbitrary digest function.
-/

namespace dedupe

/-! ## Configuration (include/config.hh) -/

/-- Base block size, `hash_blk_sz = 512UL`. -/
def hash_blk_sz : Nat := 512

/-- Width of `unsigned long` and `uintmax_t` arithmetic. -/
def u64 : Nat := 2 ^ 64

/-! ## Data model -/

/-- The 128-bit digest `XXH128_hash_t` as its two 64-bit halves. -/
structure XXH128_hash_t where
  low64 : Nat
  high64 : Nat
deriving DecidableEq, Repr

/-- What the code takes from outside the repository: the length `buf_sz` of the
scratch buffer (its declaration is not among the sources), the seeded
128-bit xxHash of a byte string, and `std::filesystem::equivalent` on paths. -/
structure env_t where
  buf_sz : Nat
  XXH3_128bits : List Nat → XXH128_hash_t
  equivalent : Nat → Nat → Bool

/-- The state of `hasher_t`: the bytes passed to `update` so far, in order. -/
abbrev hasher_t := List Nat

/-- A freshly constructed `hasher_t`. -/
def hasher_t.init : hasher_t := []

/-- The method `hasher_t::update(data, size)`. -/
def hasher_t.update (h : hasher_t) (data : List Nat) : hasher_t := h ++ data

/-- The method `hasher_t::digest()`. -/
def hasher_t.digest (env : env_t) (h : hasher_t) : XXH128_hash_t := env.XXH3_128bits h

/-- An open `std::ifstream`: the read position and whether an error flag
(`failbit`, `eofbit`) is set, in which case reads deliver nothing. -/
structure ifstream where
  pos : Nat
  fail : Bool
deriving DecidableEq, Repr

/-- The directory entry `_file_entry` together with the bytes of the file. -/
structure directory_entry where
  path : Nat
  size : Nat
  data : List Nat
deriving DecidableEq, Repr

/-- The members of `file_cmp_t` used by file_cmp.cc, and the two effect counters. -/
structure file_cmp_t where
  _file_entry : directory_entry
  _hard_link_cnt : Nat
  _max_hash : Nat
  _file_hashes : List XXH128_hash_t
  _remain_sz : Nat
  _file_stream : Option ifstream
  io_reads : Nat
  cerr_lines : Nat
deriving DecidableEq, Repr

/-- Ways in which a call does not return normally. -/
inductive fault where
  | diverges
  | out_of_range
deriving DecidableEq, Repr

deriving instance DecidableEq for Except

/-- Modelled from the spec: the constructor of `file_cmp_t` (file_cmp.hh is not
among the sources): the digest cache is empty, the remaining byte count is the
file size, no stream is open. -/
def file_cmp_t.fresh (e : directory_entry) (hard_link_cnt max_hash : Nat) : file_cmp_t :=
  { _file_entry := e, _hard_link_cnt := hard_link_cnt, _max_hash := max_hash,
    _file_hashes := [], _remain_sz := e.size, _file_stream := none,
    io_reads := 0, cerr_lines := 0 }

/-! ## The stream -/

/-- The method `file_cmp_t::open_file`: a closed stream is opened and positioned at
`size - _remain_sz` (computed in `uintmax_t`, passed on as `int64_t`: a
negative offset makes the seek fail). -/
def file_cmp_t.open_file (c : file_cmp_t) : file_cmp_t :=
  match c._file_stream with
  | some _ => c
  | none =>
    let processed := (c._file_entry.size + u64 - c._remain_sz % u64) % u64
    let s : ifstream :=
      if processed < 2 ^ 63 then { pos := processed, fail := false } else { pos := 0, fail := true }
    { c with _file_stream := some s }

/-- The method `file_cmp_t::close_file`. -/
def file_cmp_t.close_file (c : file_cmp_t) : file_cmp_t :=
  { c with _file_stream := none }

/-- The call `_file_stream.read(buf, n)`: the bytes delivered and the state afterwards.
Fewer than `n` bytes are delivered at the end of the data or when the stream
is not in a good state. -/
def file_cmp_t.read (c : file_cmp_t) (n : Nat) : List Nat × file_cmp_t :=
  match c._file_stream with
  | none => ([], { c with io_reads := c.io_reads + 1 })
  | some s =>
    if s.fail then ([], { c with io_reads := c.io_reads + 1 })
    else
      let buf := (c._file_entry.data.drop s.pos).take n
      (buf, { c with
                _file_stream := some { pos := s.pos + buf.length, fail := decide (buf.length < n) },
                io_reads := c.io_reads + 1 })

/-- The call `std::vector::resize(n)` on the digest cache: cut to `n` entries or padded
with value-initialised digests. -/
def resize (v : List XXH128_hash_t) (n : Nat) : List XXH128_hash_t :=
  v.take n ++ List.replicate (n - v.length) { low64 := 0, high64 := 0 }

/-! ## `lazy_hash` -/

/-- The `while (blk_sz > 0)` loop of `lazy_hash` followed by the final
`emplace_back`.  The first argument bounds the number of iterations. -/
def file_cmp_t.read_blk (env : env_t) :
    Nat → file_cmp_t → hasher_t → Nat → Except fault file_cmp_t
  | _, c, hasher, 0 =>
    .ok { c with _file_hashes := c._file_hashes ++ [hasher.digest env] }
  | 0, _, _, _ + 1 => .error .diverges
  | fuel + 1, c, hasher, blk_sz + 1 =>
    let read_sz := min env.buf_sz (blk_sz + 1)
    let r := c.read read_sz
    if read_sz ≠ r.1.length then
      .ok { r.2 with
              cerr_lines := r.2.cerr_lines + 1,
              _file_hashes := resize r.2._file_hashes r.2._max_hash,
              _remain_sz := 0 }
    else
      file_cmp_t.read_blk env fuel r.2 (hasher.update r.1) (blk_sz + 1 - read_sz)

/-- The nominal size of block `idx`:
`idx == 0U ? hash_blk_sz : hash_blk_sz << (idx - 1U)` in 64-bit arithmetic.  The
bits shifted out are lost; a shift by 64 or more, which C++ leaves undefined,
is taken to lose all of them. -/
def nominal_blk_sz (idx : Nat) : Nat :=
  if idx = 0 then hash_blk_sz else (hash_blk_sz * 2 ^ (idx - 1)) % u64

/-- The method `file_cmp_t::lazy_hash(idx)`. -/
def file_cmp_t.lazy_hash (env : env_t) (c : file_cmp_t) (idx : Nat) : Except fault file_cmp_t :=
  if idx < c._file_hashes.length then .ok c
  else
    let c1 := c.open_file
    let blk_sz := min (nominal_blk_sz idx) c1._remain_sz
    let c2 := { c1 with _remain_sz := c1._remain_sz - blk_sz }
    file_cmp_t.read_blk env blk_sz c2 hasher_t.init blk_sz

/-! ## `operator<=>` -/

/-- The `for` loop of `operator<=>` from index `i` with `n` iterations left;
`cmp` is `equal` whenever an iteration starts. -/
def file_cmp_t.cmp_loop (env : env_t) :
    Nat → Nat → file_cmp_t → file_cmp_t → Except fault (Ordering × file_cmp_t × file_cmp_t)
  | 0, _, a, b => .ok (.eq, a, b)
  | n + 1, i, a, b =>
    match a.lazy_hash env i with
    | .error f => .error f
    | .ok a1 =>
      match b.lazy_hash env i with
      | .error f => .error f
      | .ok b1 =>
        match a1._file_hashes[i]?, b1._file_hashes[i]? with
        | some x, some y =>
          if compare x.high64 y.high64 ≠ .eq then .ok (compare x.high64 y.high64, a1, b1)
          else if compare x.low64 y.low64 ≠ .eq then .ok (compare x.low64 y.low64, a1, b1)
          else file_cmp_t.cmp_loop env n (i + 1) a1 b1
        | _, _ => .error .out_of_range

/-- The hard-link test at the head of `operator<=>`. -/
def file_cmp_t.hard_linked (env : env_t) (a b : file_cmp_t) : Bool :=
  decide (a._hard_link_cnt > 1) && decide (a._hard_link_cnt = b._hard_link_cnt) &&
    env.equivalent a._file_entry.path b._file_entry.path

/-- The operator `file_cmp_t::operator<=>`: the ordering returned and both comparators afterwards. -/
def file_cmp_t.three_way (env : env_t) (a b : file_cmp_t) :
    Except fault (Ordering × file_cmp_t × file_cmp_t) :=
  if a.hard_linked env b then .ok (.eq, a, b)
  else
    match file_cmp_t.cmp_loop env a._max_hash 0 a b with
    | .error f => .error f
    | .ok (cmp, a1, b1) => .ok (cmp, a1.close_file, b1.close_file)

/-! ## Sample environment and files -/

/-- A sample digest function: the length of the input and a positional checksum. -/
def sample_xxh (bs : List Nat) : XXH128_hash_t :=
  { high64 := bs.length % u64, low64 := (bs.foldl (fun acc b => 3 * acc + b + 1) 0) % u64 }

/-- A sample environment: a buffer of 16 MiB (the value of `max_buf_sz`), paths
that agree up to their last decimal digit are links to one file. -/
def sample_env : env_t :=
  { buf_sz := 16 * 1024 * 1024, XXH3_128bits := sample_xxh,
    equivalent := fun p q => decide (p / 10 = q / 10) }

/-- The sample environment with a buffer of four bytes, so that a block is read
in several chunks. -/
def small_env : env_t := { sample_env with buf_sz := 4 }

/-- Two links (paths 10 and 11, link count 2) that are handed different bytes. -/
def link_a : file_cmp_t := file_cmp_t.fresh ⟨10, 3, [1, 2, 3]⟩ 2 1

/-- The second link. -/
def link_b : file_cmp_t := file_cmp_t.fresh ⟨11, 3, [9, 9, 9]⟩ 2 1

/-- A comparator over a file recorded with 1000 bytes of which only 600 can be
read, after its block 0 has been hashed. -/
def cut_c : file_cmp_t :=
  { _file_entry := ⟨20, 1000, List.replicate 600 7⟩, _hard_link_cnt := 1, _max_hash := 3,
    _file_hashes := [sample_xxh (List.replicate 512 7)], _remain_sz := 488,
    _file_stream := none, io_reads := 1, cerr_lines := 0 }

/-- The comparator `cut_c` after `lazy_hash(1)` has met the short read. -/
def cut_c1 : file_cmp_t :=
  { cut_c with
    _file_hashes := [sample_xxh (List.replicate 512 7), ⟨0, 0⟩, ⟨0, 0⟩], _remain_sz := 0,
    _file_stream := some ⟨600, true⟩, io_reads := 2, cerr_lines := 1 }

/-- A fresh comparator over a three-byte file. -/
def tiny_c : file_cmp_t := file_cmp_t.fresh ⟨30, 3, [1, 2, 3]⟩ 1 3

/-- A fresh comparator over a one-byte file, one block. -/
def one_a : file_cmp_t := file_cmp_t.fresh ⟨40, 1, [5]⟩ 1 1

/-- A fresh comparator with no block allowed, over a file recorded with one
byte that cannot be read. -/
def none_b : file_cmp_t := file_cmp_t.fresh ⟨50, 1, []⟩ 1 0

/-- The comparator `tiny_c` after `lazy_hash(1)`: one digest, over all three bytes. -/
def tiny_c1 : file_cmp_t :=
  { tiny_c with
    _file_hashes := [sample_xxh [1, 2, 3]], _remain_sz := 0,
    _file_stream := some ⟨3, false⟩, io_reads := 1 }

/-- The comparator `tiny_c1` after a second `lazy_hash(1)`: a digest of no bytes is added. -/
def tiny_c2 : file_cmp_t :=
  { tiny_c1 with _file_hashes := [sample_xxh [1, 2, 3], sample_xxh []] }

/-- A fresh comparator over a ten-byte file. -/
def ten_c : file_cmp_t := file_cmp_t.fresh ⟨35, 10, [1, 2, 3, 4, 5, 6, 7, 8, 9, 10]⟩ 1 3

/-- The comparator `ten_c` after `lazy_hash(0)` with a four-byte buffer: one
digest over the ten bytes, read in three chunks. -/
def ten_c0 : file_cmp_t :=
  { ten_c with
    _file_hashes := [sample_xxh [1, 2, 3, 4, 5, 6, 7, 8, 9, 10]], _remain_sz := 0,
    _file_stream := some ⟨10, false⟩, io_reads := 3 }

/-- A file of 513 bytes: 512 sevens and a final 1. -/
def file_p : directory_entry := ⟨60, 513, List.replicate 512 7 ++ [1]⟩

/-- A file of 513 bytes: 512 sevens and a final 2. -/
def file_q : directory_entry := ⟨70, 513, List.replicate 512 7 ++ [2]⟩

/-- The comparator over `file_p` (two blocks) after it has been compared with
the one over `file_q`. -/
def cmp_p1 : file_cmp_t :=
  { _file_entry := file_p, _hard_link_cnt := 1, _max_hash := 2,
    _file_hashes := [sample_xxh (List.replicate 512 7), sample_xxh [1]],
    _remain_sz := 0, _file_stream := none, io_reads := 2, cerr_lines := 0 }

/-- The comparator over `file_q` after the same comparison. -/
def cmp_q1 : file_cmp_t :=
  { _file_entry := file_q, _hard_link_cnt := 1, _max_hash := 2,
    _file_hashes := [sample_xxh (List.replicate 512 7), sample_xxh [2]],
    _remain_sz := 0, _file_stream := none, io_reads := 2, cerr_lines := 0 }

/-- A file of 1000 bytes: 600 sevens, a 1, and 399 zeros. -/
def file_a : directory_entry := ⟨80, 1000, List.replicate 600 7 ++ 1 :: List.replicate 399 0⟩

/-- A file of 1000 bytes that differs from `file_a` at offset 600 only, where it has a 2. -/
def file_b : directory_entry := ⟨90, 1000, List.replicate 600 7 ++ 2 :: List.replicate 399 0⟩

/-- The comparator over `file_a` after the comparison with the one over `file_b`. -/
def cmp_a1 : file_cmp_t :=
  { _file_entry := file_a, _hard_link_cnt := 1, _max_hash := 2,
    _file_hashes := [sample_xxh (List.replicate 512 7),
      sample_xxh (List.replicate 88 7 ++ 1 :: List.replicate 399 0)],
    _remain_sz := 0, _file_stream := none, io_reads := 2, cerr_lines := 0 }

/-- The comparator over `file_b` after the same comparison. -/
def cmp_b1 : file_cmp_t :=
  { _file_entry := file_b, _hard_link_cnt := 1, _max_hash := 2,
    _file_hashes := [sample_xxh (List.replicate 512 7),
      sample_xxh (List.replicate 88 7 ++ 2 :: List.replicate 399 0)],
    _remain_sz := 0, _file_stream := none, io_reads := 2, cerr_lines := 0 }

/-- A file of 512 bytes, all sevens: the first block of `file_p` and `file_q`. -/
def file_h : directory_entry := ⟨100, 512, List.replicate 512 7⟩

/-- A file of 513 bytes: 512 sevens and a final 3. -/
def file_r : directory_entry := ⟨110, 513, List.replicate 512 7 ++ [3]⟩

/-- The comparator over `file_r` after a comparison that hashed both its blocks. -/
def cmp_r1 : file_cmp_t :=
  { _file_entry := file_r, _hard_link_cnt := 1, _max_hash := 2,
    _file_hashes := [sample_xxh (List.replicate 512 7), sample_xxh [3]],
    _remain_sz := 0, _file_stream := none, io_reads := 2, cerr_lines := 0 }

/-- The ordering a call returned, if it returned. -/
def outcome (r : Except fault (Ordering × file_cmp_t × file_cmp_t)) : Option Ordering :=
  match r with
  | .ok (o, _, _) => some o
  | .error _ => none

/-- A fresh comparator with one block over a file recorded with one byte that
cannot be read. -/
def dead_a : file_cmp_t := file_cmp_t.fresh ⟨140, 1, []⟩ 1 1

/-- A fresh comparator with two blocks over another such file. -/
def dead_b : file_cmp_t := file_cmp_t.fresh ⟨150, 1, []⟩ 1 2

/-- The comparator `dead_a` after its short read: one value-initialised digest. -/
def dead_a1 : file_cmp_t :=
  { dead_a with _file_hashes := [⟨0, 0⟩], _remain_sz := 0, io_reads := 1, cerr_lines := 1 }

/-- The comparator `dead_b` after its short read: two value-initialised digests. -/
def dead_b1 : file_cmp_t :=
  { dead_b with
    _file_hashes := [⟨0, 0⟩, ⟨0, 0⟩], _remain_sz := 0, io_reads := 1, cerr_lines := 1 }

/-- A fresh comparator with one block over a file recorded with 512 bytes of
which 100 can be read. -/
def part_a : file_cmp_t := file_cmp_t.fresh ⟨160, 512, List.replicate 100 7⟩ 1 1

/-- A fresh comparator with two blocks over a file of the same 100 bytes. -/
def part_b : file_cmp_t := file_cmp_t.fresh ⟨170, 100, List.replicate 100 7⟩ 1 2

/-! ## Auxiliary notions used to describe the stream -/

/-- Number of bytes the open stream can still deliver. -/
def file_cmp_t.avail (c : file_cmp_t) : Nat :=
  match c._file_stream with
  | some s => if s.fail then 0 else c._file_entry.data.length - s.pos
  | none => 0

/-- The next `n` bytes at the position of the stream. -/
def file_cmp_t.chunk (c : file_cmp_t) (n : Nat) : List Nat :=
  match c._file_stream with
  | some s => (c._file_entry.data.drop s.pos).take n
  | none => []

/-- The stream moved forward by `n` bytes. -/
def file_cmp_t.advance (c : file_cmp_t) (n : Nat) : Option ifstream :=
  c._file_stream.map (fun s => { s with pos := s.pos + n })

/-! ## Block geometry as the specification words it -/

/-- Nominal block size: `hash_blk_sz` for block 0 and `hash_blk_sz * 2^(i-1)`
for block `i ≥ 1`, as a natural number. -/
def spec_nominal (i : Nat) : Nat :=
  if i = 0 then hash_blk_sz else hash_blk_sz * 2 ^ (i - 1)

/-- Offset `o_i` of block `i`: `o_0 = 0` and `o_(i+1) = o_i + s_i`, where
`s_i` is the nominal size clamped to the bytes left after `o_i`. -/
def spec_off (file_size : Nat) : Nat → Nat
  | 0 => 0
  | i + 1 => spec_off file_size i + min (spec_nominal i) (file_size - spec_off file_size i)

/-- Size `s_i` of block `i`. -/
def spec_sz (file_size i : Nat) : Nat :=
  min (spec_nominal i) (file_size - spec_off file_size i)

/-- The bytes `[o_i, o_i + s_i)` of a file. -/
def blk_bytes (e : directory_entry) (i : Nat) : List Nat :=
  (e.data.drop (spec_off e.size i)).take (spec_sz e.size i)

/-- The seeded hash of block `i` of a file. -/
def blk_digest (env : env_t) (e : directory_entry) (i : Nat) : XXH128_hash_t :=
  env.XXH3_128bits (blk_bytes e i)

/-- Every cached digest is the hash of its block. -/
def cached (env : env_t) (c : file_cmp_t) : Prop :=
  c._file_hashes = (List.range c._file_hashes.length).map (blk_digest env c._file_entry)

/-- The bytes not yet hashed are those after the cached blocks. -/
def remain_ok (c : file_cmp_t) : Prop :=
  c._remain_sz + spec_off c._file_entry.size c._file_hashes.length = c._file_entry.size

/-- An open stream in a good state stands at `size - _remain_sz`. -/
def stream_ok (c : file_cmp_t) : Prop :=
  ∀ s, c._file_stream = some s → s.fail = false → s.pos + c._remain_sz = c._file_entry.size

/-- An open stream has no error flag set. -/
def stream_good (c : file_cmp_t) : Prop :=
  ∀ s, c._file_stream = some s → s.fail = false

/-- The file delivers all the bytes its recorded size promises, and the size
fits the signed offset type. -/
def readable (e : directory_entry) : Prop :=
  e.size ≤ e.data.length ∧ e.size < 2 ^ 63

/-- The total order on digests: lexicographic on (`high64`, `low64`). -/
def digest_order (x y : XXH128_hash_t) : Ordering :=
  if x.high64 < y.high64 then .lt
  else if y.high64 < x.high64 then .gt
  else if x.low64 < y.low64 then .lt
  else if y.low64 < x.low64 then .gt
  else .eq

/-- Lexicographic comparison of two digest sequences on the indices
`i, i+1, ..., i+n-1`. -/
def lex_order (da db : Nat → XXH128_hash_t) : Nat → Nat → Ordering
  | 0, _ => .eq
  | n + 1, i =>
    if digest_order (da i) (db i) ≠ .eq then digest_order (da i) (db i)
    else lex_order da db n (i + 1)

/-- One past the first index among `i, ..., i+n-1` at which two digest sequences
differ, and `i + n` when there is none: the number of blocks a comparison needs. -/
def stop_index (da db : Nat → XXH128_hash_t) : Nat → Nat → Nat
  | 0, i => i
  | n + 1, i => if da i ≠ db i then i + 1 else stop_index da db n (i + 1)

/-- A comparator that has reported no read error holds sound digests, the
matching remaining byte count and a stream at the matching offset. -/
def sound (env : env_t) (c : file_cmp_t) : Prop :=
  c._file_entry.size < 2 ^ 64 ∧
    (c.cerr_lines = 0 → cached env c ∧ remain_ok c ∧ stream_ok c)

/-- The comparator states reached from a fresh comparator (of a file whose size
fits `uintmax_t`) by returning calls of `operator<=>` on either side, against
any peer. -/
inductive reachable (env : env_t) : file_cmp_t → Prop
  | fresh (e : directory_entry) (hard_link_cnt max_hash : Nat) :
      e.size < 2 ^ 64 → reachable env (file_cmp_t.fresh e hard_link_cnt max_hash)
  | lhs (a b : file_cmp_t) (o : Ordering) (a' b' : file_cmp_t) :
      reachable env a → a.three_way env b = .ok (o, a', b') → reachable env a'
  | rhs (a b : file_cmp_t) (o : Ordering) (a' b' : file_cmp_t) :
      reachable env b → a.three_way env b = .ok (o, a', b') → reachable env b'

/-- What a call keeps of the comparator `c0` it started from: the file, the
link count and the block bound; the error count does not drop, and as long as
it stays the same the cache only grows at the end. -/
def keeps (c0 c : file_cmp_t) : Prop :=
  c._file_entry = c0._file_entry ∧ c._hard_link_cnt = c0._hard_link_cnt ∧
  c._max_hash = c0._max_hash ∧ c0.cerr_lines ≤ c.cerr_lines ∧
  (c.cerr_lines = c0.cerr_lines → c0._file_hashes <+: c._file_hashes)

/-- A sound comparator that has reported no read error and whose stream, if
open, has no error flag. -/
def clean (env : env_t) (c : file_cmp_t) : Prop :=
  sound env c ∧ c.cerr_lines = 0 ∧ stream_good c

/-- The call `a <=> b` returns the ordering `o`. -/
def returns (env : env_t) (a b : file_cmp_t) (o : Ordering) : Prop :=
  ∃ a' b', a.three_way env b = .ok (o, a', b')

/-- The identity test relates the two comparators only if they are over the
same bytes. -/
def consistent (env : env_t) (a b : file_cmp_t) : Prop :=
  env.equivalent a._file_entry.path b._file_entry.path = true →
    a._file_entry.size = b._file_entry.size ∧ a._file_entry.data = b._file_entry.data

/-- The statement C6 for a given environment, narrowed in its favour to fresh
comparators with link count 1 and a common block bound that covers the file,
over two files of one size that deliver all their bytes, each below 256: if
the files agree before offset `k`, the comparison returns `less` when the
byte of the left file at `k` is the smaller one and `greater` when it is the
larger one. -/
def C6_claim (env : env_t) : Prop :=
  ∀ (ea eb : directory_entry) (m k : Nat),
    ea.size = eb.size → ea.data.length = ea.size → eb.data.length = eb.size →
    ea.size < 2 ^ 63 → (∀ x ∈ ea.data, x < 256) → (∀ x ∈ eb.data, x < 256) →
    spec_off ea.size m = ea.size →
    ea.data.take k = eb.data.take k → k < ea.size →
    (ea.data.getD k 0 < eb.data.getD k 0 →
      returns env (file_cmp_t.fresh ea 1 m) (file_cmp_t.fresh eb 1 m) .lt) ∧
    (eb.data.getD k 0 < ea.data.getD k 0 →
      returns env (file_cmp_t.fresh ea 1 m) (file_cmp_t.fresh eb 1 m) .gt)

/-- A file of 1000 bytes, all sevens. -/
def file_s : directory_entry := ⟨120, 1000, List.replicate 1000 7⟩

/-- The comparator over `file_s` after its first two blocks have been hashed. -/
def cmp_s1 : file_cmp_t :=
  { _file_entry := file_s, _hard_link_cnt := 1, _max_hash := 3,
    _file_hashes := [sample_xxh (List.replicate 512 7), sample_xxh (List.replicate 488 7)],
    _remain_sz := 0, _file_stream := none, io_reads := 2, cerr_lines := 0 }

/-- What keeps the right operand of a comparison with left bound `m` in
bounds: it has at least `m` blocks; or its file delivers all its bytes and it
is clean; or it is sound, has nothing left to hash once it has reported a read
error, and its own bound covers its file. -/
def rhs_safe (env : env_t) (m : Nat) (b : file_cmp_t) : Prop :=
  m ≤ b._max_hash ∨ (readable b._file_entry ∧ clean env b) ∨
  (sound env b ∧ (b.cerr_lines ≠ 0 → b._remain_sz = 0) ∧
    spec_off b._file_entry.size b._max_hash = b._file_entry.size)

/-! ## Lemmas: the stream and the read loop -/

theorem read_full (c : file_cmp_t) (n : Nat) (hn : 0 < n) (h : n ≤ c.avail) :
    (c.read n).1 = c.chunk n ∧ (c.read n).1.length = n ∧
    (c.read n).2 = { c with _file_stream := c.advance n, io_reads := c.io_reads + 1 } := by
  unfold file_cmp_t.avail at h
  unfold file_cmp_t.read file_cmp_t.chunk file_cmp_t.advance
  cases hs : c._file_stream with
  | none => simp [hs] at h; omega
  | some s =>
    simp only [hs] at h ⊢
    by_cases hf : s.fail = true
    · simp [hf] at h; omega
    · simp only [hf, if_false, Bool.false_eq_true] at h ⊢
      have hl : ((List.drop s.pos c._file_entry.data).take n).length = n := by
        simp [List.length_take, List.length_drop]; omega
      refine ⟨trivial, hl, ?_⟩
      simp [hl]
      simpa using hf

theorem read_short (c : file_cmp_t) (n : Nat) (h : c.avail < n) :
    (c.read n).1.length < n ∧ (c.read n).2._file_entry = c._file_entry ∧
    (c.read n).2._hard_link_cnt = c._hard_link_cnt ∧ (c.read n).2._max_hash = c._max_hash ∧
    (c.read n).2._file_hashes = c._file_hashes ∧ (c.read n).2.cerr_lines = c.cerr_lines ∧
    (c.read n).2.io_reads = c.io_reads + 1 := by
  unfold file_cmp_t.avail at h
  unfold file_cmp_t.read
  cases hs : c._file_stream with
  | none => simp [hs] at h ⊢; omega
  | some s =>
    simp only [hs] at h ⊢
    by_cases hf : s.fail = true
    · simp [hf] at h ⊢; omega
    · simp only [hf, if_false, Bool.false_eq_true] at h ⊢
      simp [List.length_take, List.length_drop]; omega

theorem avail_advance (c : file_cmp_t) (n k : Nat) :
    file_cmp_t.avail { c with _file_stream := c.advance n, io_reads := k } = c.avail - n := by
  unfold file_cmp_t.avail file_cmp_t.advance
  cases hs : c._file_stream with
  | none => simp
  | some s =>
    simp only [Option.map_some']
    by_cases hf : s.fail = true
    · simp [hf]
    · simp only [hf, if_false, Bool.false_eq_true]
      omega

theorem chunk_advance (c : file_cmp_t) (n m k : Nat) :
    c.chunk n ++ file_cmp_t.chunk { c with _file_stream := c.advance n, io_reads := k } m
      = c.chunk (n + m) := by
  unfold file_cmp_t.chunk file_cmp_t.advance
  cases hs : c._file_stream with
  | none => simp
  | some s =>
    simp only [Option.map_some']
    rw [List.take_add, List.drop_drop]

theorem advance_advance (c : file_cmp_t) (n m k : Nat) :
    file_cmp_t.advance { c with _file_stream := c.advance n, io_reads := k } m
      = c.advance (n + m) := by
  unfold file_cmp_t.advance
  cases hs : c._file_stream with
  | none => simp
  | some s => simp [Nat.add_assoc]

theorem chunk_zero (c : file_cmp_t) : c.chunk 0 = [] := by
  unfold file_cmp_t.chunk
  cases c._file_stream <;> simp

theorem advance_zero (c : file_cmp_t) : c.advance 0 = c._file_stream := by
  unfold file_cmp_t.advance
  cases c._file_stream <;> simp

/-- The read loop returns whenever the buffer is not empty and the iteration
bound is at least the block size; it appends the digest of the next `blk` bytes
when they are all available and reports a short read otherwise. -/
theorem read_blk_spec (env : env_t) (hb : 0 < env.buf_sz) :
    ∀ (fuel : Nat) (c : file_cmp_t) (hasher : hasher_t) (blk : Nat), blk ≤ fuel →
    ∃ c', file_cmp_t.read_blk env fuel c hasher blk = .ok c' ∧
      c'._file_entry = c._file_entry ∧ c'._hard_link_cnt = c._hard_link_cnt ∧
      c'._max_hash = c._max_hash ∧
      (blk ≤ c.avail → c'.cerr_lines = c.cerr_lines ∧ c'._remain_sz = c._remain_sz ∧
          c'._file_hashes = c._file_hashes ++ [env.XXH3_128bits (hasher ++ c.chunk blk)] ∧
          c'._file_stream = c.advance blk) ∧
      (c.avail < blk → c'.cerr_lines = c.cerr_lines + 1 ∧ c'._remain_sz = 0 ∧
          c'._file_hashes = resize c._file_hashes c._max_hash) := by
  intro fuel
  induction fuel with
  | zero =>
    intro c hasher blk hle
    have h0 : blk = 0 := by omega
    subst h0
    refine ⟨{ c with _file_hashes := c._file_hashes ++ [hasher_t.digest env hasher] },
        by simp [file_cmp_t.read_blk], rfl, rfl, rfl, ?_, ?_⟩
    · intro _
      simp [chunk_zero, advance_zero, hasher_t.digest]
    · intro h; omega
  | succ f ih =>
    intro c hasher blk hle
    cases blk with
    | zero =>
      refine ⟨{ c with _file_hashes := c._file_hashes ++ [hasher_t.digest env hasher] },
        by simp [file_cmp_t.read_blk], rfl, rfl, rfl, ?_, ?_⟩
      · intro _
        simp [chunk_zero, advance_zero, hasher_t.digest]
      · intro h; omega
    | succ b =>
      simp only [file_cmp_t.read_blk]
      have hn0 : 0 < min env.buf_sz (b + 1) := by omega
      have hn1 : min env.buf_sz (b + 1) ≤ b + 1 := by omega
      generalize min env.buf_sz (b + 1) = n at hn0 hn1
      by_cases hav : n ≤ c.avail
      · obtain ⟨h1, h2, h3⟩ := read_full c n hn0 hav
        rw [if_neg (by simp [h2])]
        rw [h3, h1]
        obtain ⟨c', hc', e1, e2, e3, hs, hf⟩ :=
          ih { c with _file_stream := c.advance n, io_reads := c.io_reads + 1 }
            (hasher_t.update hasher (c.chunk n)) (b + 1 - n) (by omega)
        refine ⟨c', hc', e1, e2, e3, ?_, ?_⟩
        · intro hle2
          have := hs (by rw [avail_advance c n _]; omega)
          simp only [hasher_t.update, List.append_assoc, chunk_advance, advance_advance] at this
          have e : n + (b + 1 - n) = b + 1 := by omega
          rw [e] at this
          exact this
        · intro hlt
          exact hf (by rw [avail_advance c n _]; omega)
      · obtain ⟨h1, e1, e2, e3, e4, e5, _⟩ := read_short c n (by omega)
        rw [if_pos (by omega)]
        refine ⟨_, rfl, e1, e2, e3, ?_, ?_⟩
        · intro hle2; omega
        · intro _
          simp [e4, e5, e3]

/-! ## Lemmas: block geometry -/

theorem spec_off_closed (size : Nat) :
    ∀ i, spec_off size i = min size (if i = 0 then 0 else hash_blk_sz * 2 ^ (i - 1)) := by
  intro i
  induction i with
  | zero => simp [spec_off]
  | succ i ih =>
    rw [spec_off, ih]
    unfold spec_nominal
    by_cases h0 : i = 0
    · subst h0; simp [hash_blk_sz]; omega
    · have e : 2 ^ (i + 1 - 1) = 2 * 2 ^ (i - 1) := by
        rw [← pow_succ']; congr 1; omega
      simp only [h0, if_false, Nat.succ_ne_zero, e]
      generalize 2 ^ (i - 1) = x
      simp only [hash_blk_sz]
      omega

theorem spec_off_le (size i : Nat) : spec_off size i ≤ size := by
  rw [spec_off_closed]; omega

theorem spec_off_succ (size i : Nat) :
    spec_off size (i + 1) = spec_off size i + spec_sz size i := rfl

/-- For a size that fits 64 bits the wrapped shift of the code clamps to the
same block size as the unbounded product of the specification. -/
theorem blk_sz_eq (size i : Nat) (h : size < 2 ^ 64) :
    min (nominal_blk_sz i) (size - spec_off size i) = spec_sz size i := by
  unfold spec_sz nominal_blk_sz spec_nominal
  by_cases h0 : i = 0
  · simp [h0]
  · simp only [h0, if_false]
    by_cases hx : hash_blk_sz * 2 ^ (i - 1) < u64
    · rw [Nat.mod_eq_of_lt hx]
    · have : spec_off size i = size := by
        rw [spec_off_closed]
        simp only [h0, if_false]
        unfold u64 at hx
        omega
      rw [this]
      simp

/-! ## Lemmas: `lazy_hash` -/

theorem lazy_hash_hit (env : env_t) (c : file_cmp_t) (i : Nat)
    (h : i < c._file_hashes.length) : c.lazy_hash env i = .ok c := by
  simp [file_cmp_t.lazy_hash, h]

theorem open_file_fields (c : file_cmp_t) :
    c.open_file._file_entry = c._file_entry ∧ c.open_file._hard_link_cnt = c._hard_link_cnt ∧
    c.open_file._max_hash = c._max_hash ∧ c.open_file._file_hashes = c._file_hashes ∧
    c.open_file._remain_sz = c._remain_sz ∧ c.open_file.cerr_lines = c.cerr_lines ∧
    c.open_file.io_reads = c.io_reads := by
  unfold file_cmp_t.open_file
  cases c._file_stream <;> simp

theorem lazy_hash_miss (env : env_t) (hb : 0 < env.buf_sz) (c : file_cmp_t) (i : Nat)
    (h : c._file_hashes.length ≤ i) :
    ∃ c', c.lazy_hash env i = .ok c' ∧
      c'._file_entry = c._file_entry ∧ c'._hard_link_cnt = c._hard_link_cnt ∧
      c'._max_hash = c._max_hash ∧
      (min (nominal_blk_sz i) c._remain_sz ≤ c.open_file.avail →
        c'.cerr_lines = c.cerr_lines ∧
        c'._remain_sz = c._remain_sz - min (nominal_blk_sz i) c._remain_sz ∧
        c'._file_hashes = c._file_hashes ++
          [env.XXH3_128bits (c.open_file.chunk (min (nominal_blk_sz i) c._remain_sz))] ∧
        c'._file_stream = c.open_file.advance (min (nominal_blk_sz i) c._remain_sz)) ∧
      (c.open_file.avail < min (nominal_blk_sz i) c._remain_sz →
        c'.cerr_lines = c.cerr_lines + 1 ∧ c'._remain_sz = 0 ∧
        c'._file_hashes = resize c._file_hashes c._max_hash) := by
  obtain ⟨o1, o2, o3, o4, o5, o6, _⟩ := open_file_fields c
  unfold file_cmp_t.lazy_hash
  rw [if_neg (by omega)]
  simp only [o5]
  obtain ⟨c', hc', e1, e2, e3, hs, hf⟩ := read_blk_spec env hb
    (min (nominal_blk_sz i) c._remain_sz)
    { c.open_file with _remain_sz := c._remain_sz - min (nominal_blk_sz i) c._remain_sz }
    hasher_t.init (min (nominal_blk_sz i) c._remain_sz) (le_refl _)
  refine ⟨c', hc', ?_, ?_, ?_, ?_, ?_⟩
  · rw [e1]; exact o1
  · rw [e2]; exact o2
  · rw [e3]; exact o3
  · intro hle
    have := hs hle
    simpa [o4, o6, hasher_t.init] using this
  · intro hlt
    have := hf hlt
    simpa [o4, o6, o3] using this

theorem open_inv (c : file_cmp_t) (hsz : c._file_entry.size < 2 ^ 64)
    (hr : remain_ok c) (hs : stream_ok c) :
    ∃ s, c.open_file._file_stream = some s ∧
      (s.fail = false → s.pos = spec_off c._file_entry.size c._file_hashes.length) ∧
      (readable c._file_entry → stream_good c → s.fail = false) := by
  unfold remain_ok at hr
  unfold file_cmp_t.open_file
  cases hst : c._file_stream with
  | some t =>
    refine ⟨t, by simp [hst], ?_, ?_⟩
    · intro hf
      have := hs t hst hf
      omega
    · intro _ hg
      exact hg t hst
  | none =>
    have hp : (c._file_entry.size + u64 - c._remain_sz % u64) % u64
        = spec_off c._file_entry.size c._file_hashes.length := by
      unfold u64
      omega
    simp only [hp]
    by_cases hlt : spec_off c._file_entry.size c._file_hashes.length < 2 ^ 63
    · exact ⟨⟨spec_off c._file_entry.size c._file_hashes.length, false⟩,
        by rw [if_pos hlt], by simp, by simp⟩
    · refine ⟨⟨0, true⟩, by rw [if_neg hlt], by simp, ?_⟩
      intro hrd _
      have := spec_off_le c._file_entry.size c._file_hashes.length
      have := hrd.2
      omega

theorem cached_snoc (env : env_t) (c c' : file_cmp_t) (hc : cached env c)
    (he : c'._file_entry = c._file_entry)
    (hh : c'._file_hashes = c._file_hashes ++ [blk_digest env c._file_entry c._file_hashes.length]) :
    cached env c' := by
  unfold cached at *
  rw [hh, he]
  simp only [List.length_append, List.length_singleton, List.range_succ, List.map_append,
    List.map_singleton]
  rw [← hc]

/-- Hashing the next block of a comparator whose cache is sound: either the
digest of that block is appended and the cache stays sound, or a short read is
reported. -/
theorem lazy_hash_next (env : env_t) (hb : 0 < env.buf_sz) (c : file_cmp_t)
    (hsz : c._file_entry.size < 2 ^ 64) (hc : cached env c) (hr : remain_ok c)
    (hs : stream_ok c) :
    ∃ c', c.lazy_hash env c._file_hashes.length = .ok c' ∧
      c'._file_entry = c._file_entry ∧ c'._hard_link_cnt = c._hard_link_cnt ∧
      c'._max_hash = c._max_hash ∧
      ((c'.cerr_lines = c.cerr_lines ∧
          c'._file_hashes = c._file_hashes ++ [blk_digest env c._file_entry c._file_hashes.length] ∧
          cached env c' ∧ remain_ok c' ∧ stream_ok c' ∧
          (readable c._file_entry → stream_good c → stream_good c')) ∨
       (c'.cerr_lines = c.cerr_lines + 1 ∧ c'._remain_sz = 0 ∧
          c'._file_hashes = resize c._file_hashes c._max_hash ∧
          ¬ (readable c._file_entry ∧ stream_good c))) := by
  obtain ⟨c', hc', e1, e2, e3, hsucc, hfail⟩ :=
    lazy_hash_miss env hb c c._file_hashes.length (le_refl _)
  obtain ⟨s, hst, hpos, hgood⟩ := open_inv c hsz hr hs
  have hblk : min (nominal_blk_sz c._file_hashes.length) c._remain_sz
      = spec_sz c._file_entry.size c._file_hashes.length := by
    have : c._remain_sz = c._file_entry.size - spec_off c._file_entry.size c._file_hashes.length := by
      unfold remain_ok at hr; omega
    rw [this]
    exact blk_sz_eq _ _ hsz
  rw [hblk] at hsucc hfail
  have hav : c.open_file.avail = if s.fail then 0 else c._file_entry.data.length - s.pos := by
    unfold file_cmp_t.avail
    rw [hst, (open_file_fields c).1]
  have hle_rem : spec_sz c._file_entry.size c._file_hashes.length ≤ c._remain_sz := by
    rw [← hblk]; omega
  refine ⟨c', hc', e1, e2, e3, ?_⟩
  by_cases hle : spec_sz c._file_entry.size c._file_hashes.length ≤ c.open_file.avail
  · left
    obtain ⟨h1, h2, h3, h4⟩ := hsucc hle
    have hchunk : c.open_file.chunk (spec_sz c._file_entry.size c._file_hashes.length)
        = blk_bytes c._file_entry c._file_hashes.length := by
      unfold file_cmp_t.chunk blk_bytes
      rw [hst, (open_file_fields c).1]
      by_cases hf : s.fail = true
      · rw [hav] at hle
        simp only [hf, if_true] at hle
        have : spec_sz c._file_entry.size c._file_hashes.length = 0 := by omega
        rw [this]; simp
      · have hf' : s.fail = false := by simpa using hf
        simp only [hpos hf']
    rw [hchunk] at h3
    have h3' : c'._file_hashes
        = c._file_hashes ++ [blk_digest env c._file_entry c._file_hashes.length] := h3
    have hadv : c'._file_stream
        = some { s with pos := s.pos + spec_sz c._file_entry.size c._file_hashes.length } := by
      rw [h4]; unfold file_cmp_t.advance; rw [hst]; rfl
    refine ⟨h1, h3', cached_snoc env c c' hc e1 h3', ?_, ?_, ?_⟩
    · unfold remain_ok at *
      rw [h2, e1, h3']
      simp only [List.length_append, List.length_singleton, spec_off_succ]
      omega
    · intro t ht hf
      rw [hadv] at ht
      cases ht
      have := hpos hf
      unfold remain_ok at hr
      simp only [h2, e1]
      omega
    · intro hrd hg t ht
      rw [hadv] at ht
      cases ht
      exact hgood hrd hg
  · right
    obtain ⟨h1, h2, h3⟩ := hfail (by omega)
    refine ⟨h1, h2, h3, ?_⟩
    rintro ⟨hrd, hg⟩
    have hf := hgood hrd hg
    have hp := hpos hf
    rw [hav] at hle
    simp only [hf, Bool.false_eq_true, if_false] at hle
    unfold remain_ok at hr
    have := hrd.1
    omega

/-! ## Lemmas: the comparison loop -/

theorem digest_order_eq_iff (x y : XXH128_hash_t) : digest_order x y = .eq ↔ x = y := by
  unfold digest_order
  constructor
  · intro h
    split_ifs at h
    cases x; cases y
    simp only [XXH128_hash_t.mk.injEq] at *
    omega
  · intro h
    subst h
    simp

theorem digest_order_code (x y : XXH128_hash_t) :
    (if compare x.high64 y.high64 ≠ .eq then compare x.high64 y.high64
      else compare x.low64 y.low64) = digest_order x y := by
  unfold digest_order
  rw [Nat.compare_def_lt, Nat.compare_def_lt]
  split_ifs <;> simp_all

theorem resize_length (v : List XXH128_hash_t) (n : Nat) : (resize v n).length = n := by
  unfold resize
  simp only [List.length_append, List.length_take, List.length_replicate]
  omega

/-- With a non-empty buffer `lazy_hash` returns, and for the next index below
`_max_hash` it leaves that index cached. -/
theorem lazy_hash_total (env : env_t) (hb : 0 < env.buf_sz) (c : file_cmp_t) (i : Nat)
    (hi : i ≤ c._file_hashes.length) (hm : i < c._max_hash) :
    ∃ c', c.lazy_hash env i = .ok c' ∧ i < c'._file_hashes.length ∧
      c'._max_hash = c._max_hash := by
  by_cases hlt : i < c._file_hashes.length
  · exact ⟨c, lazy_hash_hit env c i hlt, hlt, rfl⟩
  · obtain ⟨c', hc', _, _, e3, hs, hf⟩ := lazy_hash_miss env hb c i (by omega)
    refine ⟨c', hc', ?_, e3⟩
    by_cases hle : min (nominal_blk_sz i) c._remain_sz ≤ c.open_file.avail
    · obtain ⟨_, _, h3, _⟩ := hs hle
      rw [h3]; simp; omega
    · obtain ⟨_, _, h3⟩ := hf (by omega)
      rw [h3, resize_length]; exact hm

theorem cmp_loop_step (env : env_t) (n i : Nat) (a b : file_cmp_t)
    (r : Ordering × file_cmp_t × file_cmp_t)
    (h : file_cmp_t.cmp_loop env (n + 1) i a b = .ok r) :
    ∃ a1 b1 x y, a.lazy_hash env i = .ok a1 ∧ b.lazy_hash env i = .ok b1 ∧
      a1._file_hashes[i]? = some x ∧ b1._file_hashes[i]? = some y ∧
      ((digest_order x y ≠ .eq ∧ r = (digest_order x y, a1, b1)) ∨
       (x = y ∧ file_cmp_t.cmp_loop env n (i + 1) a1 b1 = .ok r)) := by
  unfold file_cmp_t.cmp_loop at h
  cases ha : a.lazy_hash env i with
  | error f => simp [ha] at h
  | ok a1 =>
    cases hb : b.lazy_hash env i with
    | error f => simp [ha, hb] at h
    | ok b1 =>
      simp only [ha, hb] at h
      cases hx : a1._file_hashes[i]? with
      | none => simp [hx] at h
      | some x =>
        cases hy : b1._file_hashes[i]? with
        | none => simp [hx, hy] at h
        | some y =>
          simp only [hx, hy] at h
          refine ⟨a1, b1, x, y, rfl, rfl, hx, hy, ?_⟩
          have hcode := digest_order_code x y
          by_cases h1 : compare x.high64 y.high64 = .eq
          · simp only [h1, ne_eq, not_true_eq_false, if_false] at h hcode
            by_cases h2 : compare x.low64 y.low64 = .eq
            · right
              simp only [h2, ne_eq, not_true_eq_false, if_false] at h
              refine ⟨?_, h⟩
              rw [← digest_order_eq_iff, ← hcode, h2]
            · left
              simp only [h2, ne_eq, not_false_eq_true, if_true] at h
              rw [← hcode]
              refine ⟨h2, ?_⟩
              cases h; rfl
          · left
            simp only [h1, ne_eq, not_false_eq_true, if_true] at h hcode
            rw [← hcode]
            refine ⟨h1, ?_⟩
            cases h; rfl

theorem cmp_loop_unfold (env : env_t) (n i : Nat) (a b a1 b1 : file_cmp_t)
    (x y : XXH128_hash_t) (ha : a.lazy_hash env i = .ok a1) (hb : b.lazy_hash env i = .ok b1)
    (hx : a1._file_hashes[i]? = some x) (hy : b1._file_hashes[i]? = some y) :
    file_cmp_t.cmp_loop env (n + 1) i a b =
      if digest_order x y ≠ .eq then .ok (digest_order x y, a1, b1)
      else file_cmp_t.cmp_loop env n (i + 1) a1 b1 := by
  rw [file_cmp_t.cmp_loop]
  simp only [ha, hb, hx, hy]
  have hcode := digest_order_code x y
  by_cases h1 : compare x.high64 y.high64 = .eq
  · simp only [h1, ne_eq, not_true_eq_false, if_false] at hcode ⊢
    rw [hcode]
  · simp only [h1, ne_eq, not_false_eq_true, if_true] at hcode ⊢
    rw [← hcode]
    simp [h1]

/-- The loop returns when the buffer is not empty and the right operand has at
least as many blocks as the left one: every index it reads is cached. -/
theorem cmp_loop_total (env : env_t) (hb : 0 < env.buf_sz) :
    ∀ (n i : Nat) (a b : file_cmp_t), i ≤ a._file_hashes.length → i ≤ b._file_hashes.length →
      i + n ≤ a._max_hash → a._max_hash ≤ b._max_hash →
      ∃ r, file_cmp_t.cmp_loop env n i a b = .ok r := by
  intro n
  induction n with
  | zero => intro i a b _ _ _ _; exact ⟨_, rfl⟩
  | succ n ih =>
    intro i a b hia hib hn hm
    obtain ⟨a1, ha1, hla, hma⟩ := lazy_hash_total env hb a i hia (by omega)
    obtain ⟨b1, hb1, hlb, hmb⟩ := lazy_hash_total env hb b i hib (by omega)
    obtain ⟨x, hx⟩ : ∃ x, a1._file_hashes[i]? = some x :=
      ⟨a1._file_hashes[i], List.getElem?_eq_getElem hla⟩
    obtain ⟨y, hy⟩ : ∃ y, b1._file_hashes[i]? = some y :=
      ⟨b1._file_hashes[i], List.getElem?_eq_getElem hlb⟩
    rw [cmp_loop_unfold env n i a b a1 b1 x y ha1 hb1 hx hy]
    by_cases hd : digest_order x y = .eq
    · simp only [hd, ne_eq, not_true_eq_false, if_false]
      exact ih (i + 1) a1 b1 (by omega) (by omega) (by omega) (by omega)
    · simp only [hd, ne_eq, not_false_eq_true, if_true]
      exact ⟨_, rfl⟩

theorem three_way_total (env : env_t) (hb : 0 < env.buf_sz) (a b : file_cmp_t)
    (hm : a._max_hash ≤ b._max_hash) : ∃ r, a.three_way env b = .ok r := by
  unfold file_cmp_t.three_way
  by_cases hl : a.hard_linked env b = true
  · simp [hl]
  · obtain ⟨⟨o, a1, b1⟩, hr⟩ := cmp_loop_total env hb a._max_hash 0 a b (by omega) (by omega)
      (by omega) hm
    simp [hl, hr]

/-! ## Lemmas: invariants of the comparison -/

theorem idx_lt {α : Type} (l : List α) (i : Nat) (x : α) (h : l[i]? = some x) :
    i < l.length := by
  by_contra hn
  rw [List.getElem?_eq_none (by omega)] at h
  cases h

/-- What `lazy_hash` never changes, and what it changes only by appending. -/
theorem lazy_hash_mono (env : env_t) (hb : 0 < env.buf_sz) (c c' : file_cmp_t) (i : Nat)
    (h : c.lazy_hash env i = .ok c') :
    c'._file_entry = c._file_entry ∧ c'._hard_link_cnt = c._hard_link_cnt ∧
    c'._max_hash = c._max_hash ∧ c.cerr_lines ≤ c'.cerr_lines ∧
    (c'.cerr_lines = c.cerr_lines → c._file_hashes <+: c'._file_hashes) := by
  by_cases hlt : i < c._file_hashes.length
  · rw [lazy_hash_hit env c i hlt] at h
    cases h
    exact ⟨rfl, rfl, rfl, le_refl _, fun _ => List.prefix_refl _⟩
  · obtain ⟨c'', hc'', e1, e2, e3, hs, hf⟩ := lazy_hash_miss env hb c i (by omega)
    rw [h] at hc''
    cases hc''
    refine ⟨e1, e2, e3, ?_, ?_⟩
    · by_cases hle : min (nominal_blk_sz i) c._remain_sz ≤ c.open_file.avail
      · rw [(hs hle).1]
      · rw [(hf (by omega)).1]; omega
    · intro hce
      by_cases hle : min (nominal_blk_sz i) c._remain_sz ≤ c.open_file.avail
      · rw [(hs hle).2.2.1]; exact List.prefix_append _ _
      · have := (hf (by omega)).1
        omega

theorem lazy_hash_sound (env : env_t) (hb : 0 < env.buf_sz) (c c' : file_cmp_t) (i : Nat)
    (hs : sound env c) (hi : i ≤ c._file_hashes.length) (h : c.lazy_hash env i = .ok c') :
    sound env c' ∧
    (c'.cerr_lines = 0 → c'._file_hashes.length = max c._file_hashes.length (i + 1)) := by
  by_cases hlt : i < c._file_hashes.length
  · rw [lazy_hash_hit env c i hlt] at h
    cases h
    exact ⟨hs, fun _ => by omega⟩
  · have hi' : i = c._file_hashes.length := by omega
    subst hi'
    obtain ⟨e1, _, _, hmono, _⟩ := lazy_hash_mono env hb c c' _ h
    refine ⟨⟨by rw [e1]; exact hs.1, ?_⟩, ?_⟩
    · intro h0
      obtain ⟨hc, hr, hst⟩ := hs.2 (by omega)
      obtain ⟨c'', hc'', _, _, _, hcase⟩ := lazy_hash_next env hb c hs.1 hc hr hst
      rw [h] at hc''
      cases hc''
      rcases hcase with ⟨_, _, k1, k2, k3, _⟩ | ⟨k, _⟩
      · exact ⟨k1, k2, k3⟩
      · omega
    · intro h0
      obtain ⟨hc, hr, hst⟩ := hs.2 (by omega)
      obtain ⟨c'', hc'', _, _, _, hcase⟩ := lazy_hash_next env hb c hs.1 hc hr hst
      rw [h] at hc''
      cases hc''
      rcases hcase with ⟨_, k, _⟩ | ⟨k, _⟩
      · rw [k]; simp
      · omega

/-- A property kept by every `lazy_hash` on an index not beyond the cache end
is kept by the comparison loop, on either side. -/
theorem cmp_loop_inv (env : env_t) (P Q : file_cmp_t → Prop)
    (hP : ∀ c c' i, P c → i ≤ c._file_hashes.length → c.lazy_hash env i = .ok c' → P c')
    (hQ : ∀ c c' i, Q c → i ≤ c._file_hashes.length → c.lazy_hash env i = .ok c' → Q c') :
    ∀ (n i : Nat) (a b : file_cmp_t) (r : Ordering × file_cmp_t × file_cmp_t),
      file_cmp_t.cmp_loop env n i a b = .ok r → P a → Q b →
      i ≤ a._file_hashes.length → i ≤ b._file_hashes.length → P r.2.1 ∧ Q r.2.2 := by
  intro n
  induction n with
  | zero =>
    intro i a b r h pa qb _ _
    simp only [file_cmp_t.cmp_loop] at h
    cases h
    exact ⟨pa, qb⟩
  | succ n ih =>
    intro i a b r h pa qb hia hib
    obtain ⟨a1, b1, x, y, ha1, hb1, hx, hy, hcase⟩ := cmp_loop_step env n i a b r h
    have pa1 := hP a a1 i pa hia ha1
    have qb1 := hQ b b1 i qb hib hb1
    rcases hcase with ⟨_, hr⟩ | ⟨_, hr⟩
    · rw [hr]; exact ⟨pa1, qb1⟩
    · exact ih (i + 1) a1 b1 r hr pa1 qb1 (idx_lt _ _ _ hx) (idx_lt _ _ _ hy)

theorem three_way_inv (env : env_t) (P Q : file_cmp_t → Prop)
    (hP : ∀ c c' i, P c → i ≤ c._file_hashes.length → c.lazy_hash env i = .ok c' → P c')
    (hQ : ∀ c c' i, Q c → i ≤ c._file_hashes.length → c.lazy_hash env i = .ok c' → Q c')
    (hPc : ∀ c, P c → P c.close_file) (hQc : ∀ c, Q c → Q c.close_file)
    (a b : file_cmp_t) (o : Ordering) (a' b' : file_cmp_t)
    (h : a.three_way env b = .ok (o, a', b')) (pa : P a) (qb : Q b) : P a' ∧ Q b' := by
  unfold file_cmp_t.three_way at h
  by_cases hl : a.hard_linked env b = true
  · simp only [hl, if_true] at h
    cases h
    exact ⟨pa, qb⟩
  · simp only [hl, if_false, Bool.false_eq_true] at h
    cases hr : file_cmp_t.cmp_loop env a._max_hash 0 a b with
    | error f => simp [hr] at h
    | ok r =>
      obtain ⟨o1, a1, b1⟩ := r
      simp only [hr] at h
      cases h
      obtain ⟨p1, q1⟩ := cmp_loop_inv env P Q hP hQ _ 0 a b _ hr pa qb (by omega) (by omega)
      exact ⟨hPc _ p1, hQc _ q1⟩

theorem keeps_refl (c : file_cmp_t) : keeps c c :=
  ⟨rfl, rfl, rfl, le_refl _, fun _ => List.prefix_refl _⟩

theorem lazy_hash_keeps (env : env_t) (hb : 0 < env.buf_sz) (c0 c c' : file_cmp_t) (i : Nat)
    (hk : keeps c0 c) (hl : c.lazy_hash env i = .ok c') : keeps c0 c' := by
  obtain ⟨p1, p2, p3, p4, p5⟩ := hk
  obtain ⟨e1, e2, e3, e4, e5⟩ := lazy_hash_mono env hb c c' i hl
  refine ⟨e1.trans p1, e2.trans p2, e3.trans p3, by omega, ?_⟩
  intro he
  exact (p5 (by omega)).trans (e5 (by omega))

theorem three_way_keeps (env : env_t) (hb : 0 < env.buf_sz) (a b : file_cmp_t) (o : Ordering)
    (a' b' : file_cmp_t) (h : a.three_way env b = .ok (o, a', b')) :
    keeps a a' ∧ keeps b b' :=
  three_way_inv env (keeps a) (keeps b)
    (fun c c' i hk _ hl => lazy_hash_keeps env hb a c c' i hk hl)
    (fun c c' i hk _ hl => lazy_hash_keeps env hb b c c' i hk hl)
    (fun _ hc => hc) (fun _ hc => hc) a b o a' b' h (keeps_refl a) (keeps_refl b)

theorem sound_close (env : env_t) (c : file_cmp_t) (h : sound env c) : sound env c.close_file := by
  refine ⟨h.1, fun h0 => ?_⟩
  obtain ⟨k1, k2, _⟩ := h.2 h0
  refine ⟨k1, k2, ?_⟩
  intro s hs
  simp [file_cmp_t.close_file] at hs

theorem three_way_sound (env : env_t) (hb : 0 < env.buf_sz) (a b : file_cmp_t) (o : Ordering)
    (a' b' : file_cmp_t) (h : a.three_way env b = .ok (o, a', b')) :
    (sound env a → sound env a') ∧ (sound env b → sound env b') := by
  have key : ∀ c c' i, sound env c → i ≤ c._file_hashes.length →
      c.lazy_hash env i = .ok c' → sound env c' :=
    fun c c' i hs hi hl => (lazy_hash_sound env hb c c' i hs hi hl).1
  constructor
  · intro ha
    exact (three_way_inv env (sound env) (fun _ => True) key (fun _ _ _ _ _ _ => trivial)
      (sound_close env) (fun _ _ => trivial) a b o a' b' h ha trivial).1
  · intro hb'
    exact (three_way_inv env (fun _ => True) (sound env) (fun _ _ _ _ _ _ => trivial) key
      (fun _ _ => trivial) (sound_close env) a b o a' b' h trivial hb').2

theorem fresh_sound (env : env_t) (e : directory_entry) (hl m : Nat) (h : e.size < 2 ^ 64) :
    sound env (file_cmp_t.fresh e hl m) := by
  refine ⟨h, fun _ => ⟨?_, ?_, ?_⟩⟩
  · simp [cached, file_cmp_t.fresh]
  · simp [remain_ok, file_cmp_t.fresh, spec_off]
  · intro s hs
    simp [file_cmp_t.fresh] at hs

theorem reachable_sound (env : env_t) (hb : 0 < env.buf_sz) (c : file_cmp_t)
    (h : reachable env c) : sound env c := by
  induction h with
  | fresh e hl m hsz => exact fresh_sound env e hl m hsz
  | lhs a b o a' b' _ h ih => exact (three_way_sound env hb a b o a' b' h).1 ih
  | rhs a b o a' b' _ h ih => exact (three_way_sound env hb a b o a' b' h).2 ih

theorem spec_off_eq_sum (size : Nat) :
    ∀ n, spec_off size n = ((List.range n).map (spec_sz size)).sum := by
  intro n
  induction n with
  | zero => simp [spec_off]
  | succ n ih =>
    rw [spec_off_succ, List.range_succ, List.map_append, List.sum_append, ← ih]
    simp

theorem cached_get (env : env_t) (c : file_cmp_t) (h : cached env c) (i : Nat)
    (hi : i < c._file_hashes.length) :
    c._file_hashes[i]? = some (blk_digest env c._file_entry i) := by
  unfold cached at h
  rw [h]
  simp [List.getElem?_map, List.getElem?_range, hi]

/-! ## Lemmas: the result of the loop -/

theorem stop_index_ge (da db : Nat → XXH128_hash_t) :
    ∀ n i, i ≤ stop_index da db n i ∧ stop_index da db n i ≤ i + n := by
  intro n
  induction n with
  | zero => intro i; simp [stop_index]
  | succ n ih =>
    intro i
    rw [stop_index]
    split_ifs
    · omega
    · have := ih (i + 1); omega

theorem lex_order_first (da db : Nat → XXH128_hash_t) :
    ∀ n i k, i ≤ k → k < i + n → (∀ j, i ≤ j → j < k → da j = db j) → da k ≠ db k →
      lex_order da db n i = digest_order (da k) (db k) ∧ stop_index da db n i = k + 1 := by
  intro n
  induction n with
  | zero => intro i k h1 h2; omega
  | succ n ih =>
    intro i k h1 h2 hsame hdiff
    rw [lex_order, stop_index]
    by_cases hik : i = k
    · subst hik
      have : digest_order (da i) (db i) ≠ .eq := fun h => hdiff ((digest_order_eq_iff _ _).1 h)
      simp [this, hdiff]
    · have he : da i = db i := hsame i (le_refl _) (by omega)
      have : digest_order (da i) (db i) = .eq := (digest_order_eq_iff _ _).2 he
      rw [if_neg (not_not.2 this), if_neg (not_not.2 he)]
      exact ih (i + 1) k (by omega) (by omega) (fun j h3 h4 => hsame j (by omega) h4) hdiff

theorem lex_order_none (da db : Nat → XXH128_hash_t) :
    ∀ n i, (∀ j, i ≤ j → j < i + n → da j = db j) →
      lex_order da db n i = .eq ∧ stop_index da db n i = i + n := by
  intro n
  induction n with
  | zero => intro i _; simp [lex_order, stop_index]
  | succ n ih =>
    intro i hsame
    rw [lex_order, stop_index]
    have he : da i = db i := hsame i (le_refl _) (by omega)
    have : digest_order (da i) (db i) = .eq := (digest_order_eq_iff _ _).2 he
    rw [if_neg (not_not.2 this), if_neg (not_not.2 he)]
    have := ih (i + 1) (fun j h3 h4 => hsame j (by omega) (by omega))
    refine ⟨this.1, ?_⟩
    rw [this.2]; omega

theorem cmp_loop_keeps (env : env_t) (hb : 0 < env.buf_sz) (n i : Nat) (a b : file_cmp_t)
    (r : Ordering × file_cmp_t × file_cmp_t) (h : file_cmp_t.cmp_loop env n i a b = .ok r)
    (hia : i ≤ a._file_hashes.length) (hib : i ≤ b._file_hashes.length) :
    keeps a r.2.1 ∧ keeps b r.2.2 :=
  cmp_loop_inv env (keeps a) (keeps b)
    (fun c c' i hk _ hl => lazy_hash_keeps env hb a c c' i hk hl)
    (fun c c' i hk _ hl => lazy_hash_keeps env hb b c c' i hk hl)
    n i a b r h (keeps_refl a) (keeps_refl b) hia hib

/-- One sound step: when no read error is reported, `lazy_hash` on an index not
beyond the cache end leaves the digest of block `i` at index `i`. -/
theorem lazy_hash_sound_get (env : env_t) (hb : 0 < env.buf_sz) (c c' : file_cmp_t) (i : Nat)
    (x : XXH128_hash_t) (hs : sound env c) (hi : i ≤ c._file_hashes.length)
    (h : c.lazy_hash env i = .ok c') (h0 : c'.cerr_lines = 0)
    (hx : c'._file_hashes[i]? = some x) :
    sound env c' ∧ c'._file_entry = c._file_entry ∧
    c'._file_hashes.length = max c._file_hashes.length (i + 1) ∧
    x = blk_digest env c._file_entry i := by
  obtain ⟨hs', hlen⟩ := lazy_hash_sound env hb c c' i hs hi h
  obtain ⟨e1, _⟩ := lazy_hash_mono env hb c c' i h
  refine ⟨hs', e1, hlen h0, ?_⟩
  have := cached_get env c' (hs'.2 h0).1 i (idx_lt _ _ _ hx)
  rw [hx, e1] at this
  cases this
  rfl

/-- The loop on sound comparators: if it returns and neither side has reported
a read error, the ordering is the lexicographic comparison of the block
digests and each cache reaches exactly to the index where the loop stopped. -/
theorem cmp_loop_result (env : env_t) (hb : 0 < env.buf_sz) :
    ∀ (n i : Nat) (a b : file_cmp_t) (r : Ordering × file_cmp_t × file_cmp_t),
      file_cmp_t.cmp_loop env n i a b = .ok r → sound env a → sound env b →
      i ≤ a._file_hashes.length → i ≤ b._file_hashes.length →
      r.2.1.cerr_lines = 0 → r.2.2.cerr_lines = 0 →
      r.1 = lex_order (blk_digest env a._file_entry) (blk_digest env b._file_entry) n i ∧
      r.2.1._file_hashes.length = max a._file_hashes.length
        (stop_index (blk_digest env a._file_entry) (blk_digest env b._file_entry) n i) ∧
      r.2.2._file_hashes.length = max b._file_hashes.length
        (stop_index (blk_digest env a._file_entry) (blk_digest env b._file_entry) n i) := by
  intro n
  induction n with
  | zero =>
    intro i a b r h _ _ hia hib _ _
    simp only [file_cmp_t.cmp_loop] at h
    cases h
    simp only [lex_order, stop_index]
    refine ⟨trivial, ?_, ?_⟩ <;> omega
  | succ n ih =>
    intro i a b r h sa sb hia hib ha0 hb0
    obtain ⟨a1, b1, x, y, ha1, hb1, hx, hy, hcase⟩ := cmp_loop_step env n i a b r h
    have hcerr : a1.cerr_lines = 0 ∧ b1.cerr_lines = 0 := by
      rcases hcase with ⟨_, hr⟩ | ⟨_, hr⟩
      · rw [hr] at ha0 hb0; exact ⟨ha0, hb0⟩
      · obtain ⟨k1, k2⟩ := cmp_loop_keeps env hb n (i + 1) a1 b1 r hr
          (idx_lt _ _ _ hx) (idx_lt _ _ _ hy)
        have := k1.2.2.2.1
        have := k2.2.2.2.1
        omega
    obtain ⟨sa1, ea, la, hxa⟩ := lazy_hash_sound_get env hb a a1 i x sa hia ha1 hcerr.1 hx
    obtain ⟨sb1, eb, lb, hyb⟩ := lazy_hash_sound_get env hb b b1 i y sb hib hb1 hcerr.2 hy
    rw [lex_order, stop_index]
    rcases hcase with ⟨hne, hr⟩ | ⟨heq, hr⟩
    · have hd : blk_digest env a._file_entry i ≠ blk_digest env b._file_entry i := by
        intro he
        rw [← hxa, ← hyb] at he
        exact hne ((digest_order_eq_iff _ _).2 he)
      rw [← hxa, ← hyb]
      rw [hxa, hyb] at hne
      rw [hr]
      simp only [hxa, hyb, hne, hd, ne_eq, not_false_eq_true, if_true]
      exact ⟨trivial, la, lb⟩
    · have hd : blk_digest env a._file_entry i = blk_digest env b._file_entry i := by
        rw [← hxa, ← hyb]; exact heq
      have hde : digest_order (blk_digest env a._file_entry i) (blk_digest env b._file_entry i)
          = .eq := (digest_order_eq_iff _ _).2 hd
      rw [if_neg (not_not.2 hde), if_neg (not_not.2 hd)]
      obtain ⟨r1, r2, r3⟩ := ih (i + 1) a1 b1 r hr sa1 sb1 (by omega) (by omega) ha0 hb0
      rw [ea, eb] at r1 r2 r3
      have hst := stop_index_ge (blk_digest env a._file_entry) (blk_digest env b._file_entry)
        n (i + 1)
      refine ⟨r1, ?_, ?_⟩
      · rw [r2, la]; omega
      · rw [r3, lb]; omega

/-! ## Lemmas: files that deliver all their bytes -/

theorem lazy_hash_clean (env : env_t) (hb : 0 < env.buf_sz) (c c' : file_cmp_t) (i : Nat)
    (hr : readable c._file_entry) (hc : clean env c) (hi : i ≤ c._file_hashes.length)
    (h : c.lazy_hash env i = .ok c') : clean env c' := by
  obtain ⟨hs, h0, hg⟩ := hc
  refine ⟨(lazy_hash_sound env hb c c' i hs hi h).1, ?_⟩
  by_cases hlt : i < c._file_hashes.length
  · rw [lazy_hash_hit env c i hlt] at h
    cases h
    exact ⟨h0, hg⟩
  · have hi' : i = c._file_hashes.length := by omega
    subst hi'
    obtain ⟨k1, k2, k3⟩ := hs.2 h0
    obtain ⟨c'', hc'', _, _, _, hcase⟩ := lazy_hash_next env hb c hs.1 k1 k2 k3
    rw [h] at hc''
    cases hc''
    rcases hcase with ⟨e, _, _, _, _, g⟩ | ⟨_, _, _, hn⟩
    · exact ⟨by omega, g hr hg⟩
    · exact absurd ⟨hr, hg⟩ hn

theorem clean_close (env : env_t) (c : file_cmp_t) (h : clean env c) : clean env c.close_file := by
  refine ⟨sound_close env c h.1, h.2.1, ?_⟩
  intro s hs
  simp [file_cmp_t.close_file] at hs

theorem three_way_clean (env : env_t) (hb : 0 < env.buf_sz) (a b : file_cmp_t) (o : Ordering)
    (a' b' : file_cmp_t) (h : a.three_way env b = .ok (o, a', b')) :
    (readable a._file_entry → clean env a → clean env a') ∧
    (readable b._file_entry → clean env b → clean env b') := by
  have key : ∀ e : directory_entry, readable e → ∀ (c c' : file_cmp_t) (i : Nat),
      (c._file_entry = e ∧ clean env c) → i ≤ c._file_hashes.length →
      c.lazy_hash env i = .ok c' → (c'._file_entry = e ∧ clean env c') := by
    intro e he c c' i ⟨h1, h2⟩ hi hl
    refine ⟨(lazy_hash_mono env hb c c' i hl).1.trans h1, ?_⟩
    exact lazy_hash_clean env hb c c' i (by rw [h1]; exact he) h2 hi hl
  have hclose : ∀ e : directory_entry, ∀ c : file_cmp_t,
      (c._file_entry = e ∧ clean env c) → (c.close_file._file_entry = e ∧ clean env c.close_file) :=
    fun e c hc => ⟨hc.1, clean_close env c hc.2⟩
  constructor
  · intro hr hc
    exact (three_way_inv env (fun c => c._file_entry = a._file_entry ∧ clean env c)
      (fun _ => True) (key _ hr) (fun _ _ _ _ _ _ => trivial) (hclose _) (fun _ _ => trivial)
      a b o a' b' h ⟨rfl, hc⟩ trivial).1.2
  · intro hr hc
    exact (three_way_inv env (fun _ => True)
      (fun c => c._file_entry = b._file_entry ∧ clean env c)
      (fun _ _ _ _ _ _ => trivial) (key _ hr) (fun _ _ => trivial) (hclose _)
      a b o a' b' h trivial ⟨rfl, hc⟩).2.2

/-- A reachable comparator over a file that delivers all its bytes has never
reported a read error. -/
theorem reachable_clean (env : env_t) (hb : 0 < env.buf_sz) (c : file_cmp_t)
    (h : reachable env c) : readable c._file_entry → clean env c := by
  induction h with
  | fresh e hl m hsz =>
    intro _
    refine ⟨fresh_sound env e hl m hsz, rfl, ?_⟩
    intro s hs
    simp [file_cmp_t.fresh] at hs
  | lhs a b o a' b' _ h ih =>
    intro hr
    have he := (three_way_keeps env hb a b o a' b' h).1.1
    rw [he] at hr
    exact (three_way_clean env hb a b o a' b' h).1 hr (ih hr)
  | rhs a b o a' b' _ h ih =>
    intro hr
    have he := (three_way_keeps env hb a b o a' b' h).2.1
    rw [he] at hr
    exact (three_way_clean env hb a b o a' b' h).2 hr (ih hr)

/-- The comparison of two sound comparators that are not hard links of one
file, the right one having at least as many blocks as the left one: it returns,
and if neither side has reported a read error the ordering is the
lexicographic comparison of the block digests below the left bound, each cache
reaching exactly as far as the comparison needed. -/
theorem three_way_result (env : env_t) (hb : 0 < env.buf_sz) (a b : file_cmp_t)
    (sa : sound env a) (sb : sound env b) (hm : a._max_hash ≤ b._max_hash)
    (hl : a.hard_linked env b = false) :
    ∃ o a' b', a.three_way env b = .ok (o, a', b') ∧ keeps a a' ∧ keeps b b' ∧
      (a'.cerr_lines = 0 → b'.cerr_lines = 0 →
        o = lex_order (blk_digest env a._file_entry) (blk_digest env b._file_entry)
              a._max_hash 0 ∧
        cached env a' ∧ cached env b' ∧
        a'._file_hashes.length = max a._file_hashes.length
          (stop_index (blk_digest env a._file_entry) (blk_digest env b._file_entry)
            a._max_hash 0) ∧
        b'._file_hashes.length = max b._file_hashes.length
          (stop_index (blk_digest env a._file_entry) (blk_digest env b._file_entry)
            a._max_hash 0)) := by
  obtain ⟨⟨o, a', b'⟩, hr⟩ := three_way_total env hb a b hm
  obtain ⟨ka, kb⟩ := three_way_keeps env hb a b o a' b' hr
  obtain ⟨sa', sb'⟩ := three_way_sound env hb a b o a' b' hr
  refine ⟨o, a', b', hr, ka, kb, ?_⟩
  intro ha0 hb0
  unfold file_cmp_t.three_way at hr
  simp only [hl, if_false, Bool.false_eq_true] at hr
  cases hloop : file_cmp_t.cmp_loop env a._max_hash 0 a b with
  | error f => simp [hloop] at hr
  | ok r =>
    obtain ⟨o1, a1, b1⟩ := r
    simp only [hloop] at hr
    cases hr
    obtain ⟨r1, r2, r3⟩ := cmp_loop_result env hb a._max_hash 0 a b _ hloop sa sb
      (by omega) (by omega) ha0 hb0
    exact ⟨r1, ((sa' sa).2 ha0).1, ((sb' sb).2 hb0).1, r2, r3⟩

/-! ## Lemmas: comparisons of reachable comparators -/

/-- The comparison of two reachable comparators that are not hard links of one
file, the right one having at least as many blocks as the left one. -/
theorem three_way_reachable (env : env_t) (hb : 0 < env.buf_sz) (a b : file_cmp_t)
    (ra : reachable env a) (rb : reachable env b) (hm : a._max_hash ≤ b._max_hash)
    (hl : a.hard_linked env b = false) :
    ∃ o a' b', a.three_way env b = .ok (o, a', b') ∧
      a'._file_entry = a._file_entry ∧ b'._file_entry = b._file_entry ∧
      (readable a._file_entry → a'.cerr_lines = 0) ∧
      (readable b._file_entry → b'.cerr_lines = 0) ∧
      (a'.cerr_lines = 0 → b'.cerr_lines = 0 →
        o = lex_order (blk_digest env a._file_entry) (blk_digest env b._file_entry)
              a._max_hash 0 ∧
        cached env a' ∧ cached env b' ∧
        a'._file_hashes.length = max a._file_hashes.length
          (stop_index (blk_digest env a._file_entry) (blk_digest env b._file_entry)
            a._max_hash 0) ∧
        b'._file_hashes.length = max b._file_hashes.length
          (stop_index (blk_digest env a._file_entry) (blk_digest env b._file_entry)
            a._max_hash 0)) := by
  obtain ⟨o, a', b', h, ka, kb, hres⟩ := three_way_result env hb a b
    (reachable_sound env hb a ra) (reachable_sound env hb b rb) hm hl
  refine ⟨o, a', b', h, ka.1, kb.1, ?_, ?_, hres⟩
  · intro hr
    exact ((three_way_clean env hb a b o a' b' h).1 hr (reachable_clean env hb a ra hr)).2.1
  · intro hr
    exact ((three_way_clean env hb a b o a' b' h).2 hr (reachable_clean env hb b rb hr)).2.1

theorem cached_eq_map (env : env_t) (c : file_cmp_t) (e : directory_entry) (n : Nat)
    (hc : cached env c) (he : c._file_entry = e) (hn : c._file_hashes.length = n) :
    c._file_hashes = (List.range n).map (blk_digest env e) := by
  unfold cached at hc
  rw [hn, he] at hc
  exact hc

theorem spec_off_mono (size : Nat) : ∀ i j, i ≤ j → spec_off size i ≤ spec_off size j := by
  intro i j hij
  induction j with
  | zero =>
    have : i = 0 := by omega
    subst this
    exact le_refl _
  | succ j ih =>
    by_cases h : i = j + 1
    · subst h; exact le_refl _
    · have := ih (by omega)
      rw [spec_off_succ]
      omega

/-- Files of one size that agree on their first `k` bytes have the same bytes
in every block that ends at or before offset `k`. -/
theorem blk_bytes_eq_of_take (ea eb : directory_entry) (hsz : ea.size = eb.size) (k j : Nat)
    (hk : ea.data.take k = eb.data.take k) (hj : spec_off ea.size (j + 1) ≤ k) :
    blk_bytes ea j = blk_bytes eb j := by
  unfold blk_bytes
  rw [← hsz]
  rw [spec_off_succ] at hj
  generalize spec_off ea.size j = o at hj
  generalize spec_sz ea.size j = n at hj
  rw [List.take_drop, List.take_drop]
  have h1 : ea.data.take (o + n) = (ea.data.take k).take (o + n) := by
    rw [List.take_take, Nat.min_eq_left hj]
  have h2 : eb.data.take (o + n) = (eb.data.take k).take (o + n) := by
    rw [List.take_take, Nat.min_eq_left hj]
  rw [h1, h2, hk]

theorem blk_digest_congr (env : env_t) (ea eb : directory_entry) (hsz : ea.size = eb.size)
    (hd : ea.data = eb.data) (j : Nat) : blk_digest env ea j = blk_digest env eb j := by
  unfold blk_digest blk_bytes
  rw [hsz, hd]

theorem returns_unique (env : env_t) (a b : file_cmp_t) (o o' : Ordering)
    (h : returns env a b o) (h' : returns env a b o') : o = o' := by
  obtain ⟨a1, b1, h1⟩ := h
  obtain ⟨a2, b2, h2⟩ := h'
  rw [h1] at h2
  cases h2
  rfl

/-- Reachable comparators over files that deliver all their bytes, the right
one with at least as many blocks as the left one, compare as the block digests
below the left bound do, lexicographically. -/
theorem three_way_lex (env : env_t) (hb : 0 < env.buf_sz) (a b : file_cmp_t)
    (ra : reachable env a) (rb : reachable env b)
    (hra : readable a._file_entry) (hrb : readable b._file_entry)
    (hm : a._max_hash ≤ b._max_hash) (hc : consistent env a b) :
    returns env a b
      (lex_order (blk_digest env a._file_entry) (blk_digest env b._file_entry) a._max_hash 0) := by
  by_cases hl : a.hard_linked env b = true
  · have heq : env.equivalent a._file_entry.path b._file_entry.path = true := by
      unfold file_cmp_t.hard_linked at hl
      simp only [Bool.and_eq_true] at hl
      exact hl.2
    obtain ⟨h1, h2⟩ := hc heq
    rw [(lex_order_none _ _ a._max_hash 0
      (fun j _ _ => blk_digest_congr env _ _ h1 h2 j)).1]
    refine ⟨a, b, ?_⟩
    unfold file_cmp_t.three_way
    simp [hl]
  · have hl' : a.hard_linked env b = false := by simpa using hl
    obtain ⟨o, a', b', h, _, _, h1, h2, hres⟩ := three_way_reachable env hb a b ra rb hm hl'
    obtain ⟨ho, _⟩ := hres (h1 hra) (h2 hrb)
    rw [← ho]
    exact ⟨a', b', h⟩

/-! ## The hard-link short-circuit -/

/-- C2: when the left link count exceeds 1, both link counts are equal and the
identity test holds, `operator<=>` returns `equal` and both comparators are
exactly as before: digest caches, remaining byte counts, streams, and the
counters of reads and of error lines. -/
theorem C2_hard_link_short_circuit (env : env_t) (a b : file_cmp_t)
    (h1 : a._hard_link_cnt > 1) (h2 : a._hard_link_cnt = b._hard_link_cnt)
    (h3 : env.equivalent a._file_entry.path b._file_entry.path = true) :
    a.three_way env b = .ok (.eq, a, b) := by
  unfold file_cmp_t.three_way file_cmp_t.hard_linked
  simp [h1, h2, h3]
  omega

theorem C2_hard_link_short_circuit_witness :
    link_a._hard_link_cnt > 1 ∧ link_a._hard_link_cnt = link_b._hard_link_cnt ∧
    sample_env.equivalent link_a._file_entry.path link_b._file_entry.path = true ∧
    link_a._file_entry.data ≠ link_b._file_entry.data ∧
    link_a.three_way sample_env link_b = .ok (.eq, link_a, link_b) :=
  ⟨by decide, by decide, by decide, by decide,
    C2_hard_link_short_circuit sample_env link_a link_b (by decide) (by decide) (by decide)⟩

/-! ## Short reads -/

/-- C8: for an index `i` below `_max_hash` that is not cached, `lazy_hash(i)`
returns; it reports a read error exactly when the stream cannot deliver the
whole block (a read delivers fewer bytes than requested), and then the cache
afterwards is the cache before followed by value-initialised digests up to
length `_max_hash`, and every later `lazy_hash(j)` with `j < _max_hash`
returns the comparator unchanged, read counter included. -/
theorem C8_short_read_pads_cache (env : env_t) (hb : 0 < env.buf_sz) (c : file_cmp_t) (i : Nat)
    (hi : i < c._max_hash) (hmiss : c._file_hashes.length ≤ i) :
    ∃ c', c.lazy_hash env i = .ok c' ∧
      (c'.cerr_lines ≠ c.cerr_lines ↔
        c.open_file.avail < min (nominal_blk_sz i) c._remain_sz) ∧
      (c'.cerr_lines ≠ c.cerr_lines →
        c'.cerr_lines = c.cerr_lines + 1 ∧
        c'._file_hashes = c._file_hashes ++
          List.replicate (c._max_hash - c._file_hashes.length) ⟨0, 0⟩ ∧
        c'._file_hashes.length = c._max_hash ∧ c'._max_hash = c._max_hash ∧
        ∀ j, j < c._max_hash → c'.lazy_hash env j = .ok c') := by
  obtain ⟨c', hc', _, _, e3, hs, hf⟩ := lazy_hash_miss env hb c i hmiss
  refine ⟨c', hc', ⟨fun hne => ?_, fun hlt => ?_⟩, ?_⟩
  · by_contra hle
    exact hne (hs (by omega)).1
  · have := (hf hlt).1
    omega
  intro hne
  by_cases hle : min (nominal_blk_sz i) c._remain_sz ≤ c.open_file.avail
  · exact absurd (hs hle).1 hne
  · obtain ⟨h1, _, h3⟩ := hf (by omega)
    have hlen : c'._file_hashes.length = c._max_hash := by rw [h3, resize_length]
    refine ⟨h1, ?_, hlen, e3, ?_⟩
    · rw [h3]
      unfold resize
      rw [List.take_of_length_le (by omega)]
    · intro j hj
      exact lazy_hash_hit env c' j (by omega)

theorem C8_short_read_pads_cache_witness :
    0 < sample_env.buf_sz ∧ 1 < cut_c._max_hash ∧ cut_c._file_hashes.length ≤ 1 ∧
    cut_c.lazy_hash sample_env 1 = .ok cut_c1 ∧ cut_c1.cerr_lines ≠ cut_c.cerr_lines ∧
    ∃ c', cut_c.lazy_hash sample_env 1 = .ok c' ∧
      (c'.cerr_lines ≠ cut_c.cerr_lines ↔
        cut_c.open_file.avail < min (nominal_blk_sz 1) cut_c._remain_sz) ∧
      (c'.cerr_lines ≠ cut_c.cerr_lines →
        c'.cerr_lines = cut_c.cerr_lines + 1 ∧
        c'._file_hashes = cut_c._file_hashes ++
          List.replicate (cut_c._max_hash - cut_c._file_hashes.length) ⟨0, 0⟩ ∧
        c'._file_hashes.length = cut_c._max_hash ∧ c'._max_hash = cut_c._max_hash ∧
        ∀ j, j < cut_c._max_hash → c'.lazy_hash sample_env j = .ok c') :=
  ⟨by decide, by decide, by decide, by decide!, by decide,
    C8_short_read_pads_cache sample_env (by decide) cut_c 1 (by decide) (by decide)⟩

/-! ## Idempotence of `lazy_hash` -/

/-- C9 as stated fails: on a fresh comparator over a three-byte file
`lazy_hash(1)` caches one digest (index 1 stays uncached) and a second
`lazy_hash(1)` appends another one. -/
theorem C9_counterexample :
    tiny_c.lazy_hash sample_env 1 = .ok tiny_c1 ∧
    tiny_c1.lazy_hash sample_env 1 = .ok tiny_c2 ∧
    tiny_c1._file_hashes.length = 1 ∧ tiny_c2._file_hashes.length = 2 ∧
    tiny_c2._file_hashes ≠ tiny_c1._file_hashes := by
  refine ⟨by decide, by decide, by decide, by decide, by decide⟩

/-- C9, amended: for an index `i` not beyond the end of the cache `lazy_hash(i)`
returns, and if `i < _max_hash` or the call reported no read error, then
index `i` is cached afterwards and a second `lazy_hash(i)` returns the
comparator unchanged (cache, remaining bytes, stream and read counter). -/
theorem C9_lazy_hash_idempotent (env : env_t) (hb : 0 < env.buf_sz) (c : file_cmp_t) (i : Nat)
    (hi : i ≤ c._file_hashes.length) :
    ∃ c', c.lazy_hash env i = .ok c' ∧
      ((i < c._max_hash ∨ c'.cerr_lines = c.cerr_lines) →
        i < c'._file_hashes.length ∧ c'.lazy_hash env i = .ok c') := by
  by_cases hlt : i < c._file_hashes.length
  · exact ⟨c, lazy_hash_hit env c i hlt, fun _ => ⟨hlt, lazy_hash_hit env c i hlt⟩⟩
  · obtain ⟨c', hc', _, _, _, hs, hf⟩ := lazy_hash_miss env hb c i (by omega)
    refine ⟨c', hc', ?_⟩
    intro hor
    have hlen : i < c'._file_hashes.length := by
      by_cases hle : min (nominal_blk_sz i) c._remain_sz ≤ c.open_file.avail
      · rw [(hs hle).2.2.1]; simp; omega
      · obtain ⟨h1, _, h3⟩ := hf (by omega)
        rcases hor with hm | he
        · rw [h3, resize_length]; exact hm
        · omega
    exact ⟨hlen, lazy_hash_hit env c' i hlen⟩

theorem C9_lazy_hash_idempotent_witness :
    0 < small_env.buf_sz ∧ 0 ≤ ten_c._file_hashes.length ∧
    ten_c.lazy_hash small_env 0 = .ok ten_c0 ∧ 0 < ten_c._max_hash ∧
    ten_c0.lazy_hash small_env 0 = .ok ten_c0 ∧
    ∃ c', ten_c.lazy_hash small_env 0 = .ok c' ∧
      ((0 < ten_c._max_hash ∨ c'.cerr_lines = ten_c.cerr_lines) →
        0 < c'._file_hashes.length ∧ c'.lazy_hash small_env 0 = .ok c') :=
  ⟨by decide, by decide, by decide, by decide, by decide,
    C9_lazy_hash_idempotent small_env (by decide) ten_c 0 (by decide)⟩

/-! ## Bounds of the cache accesses -/

theorem lazy_hash_exhausted (env : env_t) (hb : 0 < env.buf_sz) (c c' : file_cmp_t) (i : Nat)
    (hz : c.cerr_lines ≠ 0 → c._remain_sz = 0) (h : c.lazy_hash env i = .ok c') :
    c'.cerr_lines ≠ 0 → c'._remain_sz = 0 := by
  by_cases hlt : i < c._file_hashes.length
  · rw [lazy_hash_hit env c i hlt] at h
    cases h
    exact hz
  · obtain ⟨c'', hc'', _, _, _, hs, hf⟩ := lazy_hash_miss env hb c i (by omega)
    rw [h] at hc''
    cases hc''
    intro hne
    by_cases hle : min (nominal_blk_sz i) c._remain_sz ≤ c.open_file.avail
    · obtain ⟨h1, h2, _⟩ := hs hle
      rw [h1] at hne
      have := hz hne
      omega
    · exact (hf (by omega)).2.1

/-- A reachable comparator that has reported a read error has nothing left to hash. -/
theorem reachable_exhausted (env : env_t) (hb : 0 < env.buf_sz) (c : file_cmp_t)
    (h : reachable env c) : c.cerr_lines ≠ 0 → c._remain_sz = 0 := by
  have key : ∀ (c c' : file_cmp_t) (i : Nat), (c.cerr_lines ≠ 0 → c._remain_sz = 0) →
      i ≤ c._file_hashes.length → c.lazy_hash env i = .ok c' →
      (c'.cerr_lines ≠ 0 → c'._remain_sz = 0) :=
    fun c c' i hz _ hl => lazy_hash_exhausted env hb c c' i hz hl
  induction h with
  | fresh e hl m hsz =>
    intro hne
    exact absurd rfl hne
  | lhs a b o a' b' _ h ih =>
    exact (three_way_inv env (fun c => c.cerr_lines ≠ 0 → c._remain_sz = 0) (fun _ => True)
      key (fun _ _ _ _ _ _ => trivial) (fun _ hc => hc) (fun _ _ => trivial)
      a b o a' b' h ih trivial).1
  | rhs a b o a' b' _ h ih =>
    exact (three_way_inv env (fun _ => True) (fun c => c.cerr_lines ≠ 0 → c._remain_sz = 0)
      (fun _ _ _ _ _ _ => trivial) key (fun _ _ => trivial) (fun _ hc => hc)
      a b o a' b' h trivial ih).2

theorem lazy_hash_rhs (env : env_t) (hb : 0 < env.buf_sz) (m i : Nat) (b : file_cmp_t)
    (hq : rhs_safe env m b) (hi : i ≤ b._file_hashes.length) (him : i < m) :
    ∃ b', b.lazy_hash env i = .ok b' ∧ i < b'._file_hashes.length ∧ rhs_safe env m b' := by
  have hex : ∃ b', b.lazy_hash env i = .ok b' := by
    by_cases hlt : i < b._file_hashes.length
    · exact ⟨b, lazy_hash_hit env b i hlt⟩
    · obtain ⟨b', h, _⟩ := lazy_hash_miss env hb b i (by omega)
      exact ⟨b', h⟩
  obtain ⟨b', h⟩ := hex
  obtain ⟨he, _, hmx, _, _⟩ := lazy_hash_mono env hb b b' i h
  rcases hq with hm | ⟨hr, hc⟩ | ⟨hs, hz, hcov⟩
  · obtain ⟨b'', h1, h2, _⟩ := lazy_hash_total env hb b i hi (by omega)
    rw [h] at h1
    cases h1
    exact ⟨b', h, h2, Or.inl (by omega)⟩
  · have hc' := lazy_hash_clean env hb b b' i hr hc hi h
    have hlen := (lazy_hash_sound env hb b b' i hc.1 hi h).2 hc'.2.1
    exact ⟨b', h, by omega, Or.inr (Or.inl ⟨by rw [he]; exact hr, hc'⟩)⟩
  · have hs' := (lazy_hash_sound env hb b b' i hs hi h).1
    have hz' := lazy_hash_exhausted env hb b b' i hz h
    refine ⟨b', h, ?_, Or.inr (Or.inr ⟨hs', hz', by rw [he, hmx]; exact hcov⟩)⟩
    by_cases hlt : i < b._file_hashes.length
    · rw [lazy_hash_hit env b i hlt] at h
      cases h
      exact hlt
    · by_cases him' : i < b._max_hash
      · obtain ⟨b'', h1, h2, _⟩ := lazy_hash_total env hb b i hi him'
        rw [h] at h1
        cases h1
        exact h2
      · have hrem : b._remain_sz = 0 := by
          by_cases h0 : b.cerr_lines = 0
          · have hr := (hs.2 h0).2.1
            unfold remain_ok at hr
            have h1 := spec_off_mono b._file_entry.size b._max_hash b._file_hashes.length
              (by omega)
            have h2 := spec_off_le b._file_entry.size b._file_hashes.length
            omega
          · exact hz h0
        obtain ⟨b'', h1, _, _, _, hsucc, _⟩ := lazy_hash_miss env hb b i (by omega)
        rw [h] at h1
        cases h1
        rw [(hsucc (by rw [hrem]; omega)).2.2.1]
        simp
        omega

theorem cmp_loop_returns (env : env_t) (hb : 0 < env.buf_sz) (m : Nat) :
    ∀ (n i : Nat) (a b : file_cmp_t), i ≤ a._file_hashes.length → i ≤ b._file_hashes.length →
      i + n ≤ a._max_hash → a._max_hash = m → rhs_safe env m b →
      ∃ r, file_cmp_t.cmp_loop env n i a b = .ok r := by
  intro n
  induction n with
  | zero => intro i a b _ _ _ _ _; exact ⟨_, rfl⟩
  | succ n ih =>
    intro i a b hia hib hn hm hq
    obtain ⟨a1, ha1, hla, hma⟩ := lazy_hash_total env hb a i hia (by omega)
    obtain ⟨b1, hb1, hlb, hq1⟩ := lazy_hash_rhs env hb m i b hq hib (by omega)
    obtain ⟨x, hx⟩ : ∃ x, a1._file_hashes[i]? = some x :=
      ⟨a1._file_hashes[i], List.getElem?_eq_getElem hla⟩
    obtain ⟨y, hy⟩ : ∃ y, b1._file_hashes[i]? = some y :=
      ⟨b1._file_hashes[i], List.getElem?_eq_getElem hlb⟩
    rw [cmp_loop_unfold env n i a b a1 b1 x y ha1 hb1 hx hy]
    by_cases hd : digest_order x y = .eq
    · simp only [hd, ne_eq, not_true_eq_false, if_false]
      exact ih (i + 1) a1 b1 (by omega) (by omega) (by omega) (by omega) hq1
    · simp only [hd, ne_eq, not_false_eq_true, if_true]
      exact ⟨_, rfl⟩

/-- C10 as stated fails: with a left operand of one block and a right operand
of no block whose file cannot be read, the short read of the right operand
resizes its cache to length 0 and `rhs._file_hashes[0]` is out of range. -/
theorem C10_counterexample :
    reachable sample_env one_a ∧ reachable sample_env none_b ∧
    one_a.three_way sample_env none_b = .error .out_of_range :=
  ⟨reachable.fresh _ _ _ (by decide), reachable.fresh _ _ _ (by decide), by decide⟩

/-- C10, amended: from any state of the left operand, with any read outcomes
and a non-empty buffer, `operator<=>` returns, so that no index it reads is
out of range, when the right operand has at least as many blocks as the left
one, or is a reachable comparator whose file delivers all its bytes, or is a
reachable comparator whose own block bound covers its file. -/
theorem C10_accesses_in_bounds (env : env_t) (hb : 0 < env.buf_sz) (a b : file_cmp_t)
    (h : a._max_hash ≤ b._max_hash ∨ (reachable env b ∧ readable b._file_entry) ∨
      (reachable env b ∧ spec_off b._file_entry.size b._max_hash = b._file_entry.size)) :
    (∃ r, a.three_way env b = .ok r) ∧ a.three_way env b ≠ .error .out_of_range := by
  have hq : rhs_safe env a._max_hash b := by
    rcases h with h | ⟨h1, h2⟩ | ⟨h1, h2⟩
    · exact Or.inl h
    · exact Or.inr (Or.inl ⟨h2, reachable_clean env hb b h1 h2⟩)
    · exact Or.inr (Or.inr ⟨reachable_sound env hb b h1, reachable_exhausted env hb b h1, h2⟩)
  have hex : ∃ r, a.three_way env b = .ok r := by
    unfold file_cmp_t.three_way
    by_cases hl : a.hard_linked env b = true
    · simp [hl]
    · obtain ⟨⟨o, a1, b1⟩, hr⟩ := cmp_loop_returns env hb a._max_hash a._max_hash 0 a b
        (by omega) (by omega) (by omega) rfl hq
      simp [hl, hr]
  refine ⟨hex, ?_⟩
  obtain ⟨r, hr⟩ := hex
  rw [hr]
  intro hcontra
  cases hcontra

theorem C10_accesses_in_bounds_witness :
    0 < sample_env.buf_sz ∧ (file_cmp_t.fresh file_s 1 3)._max_hash ≤ cut_c._max_hash ∧
    (file_cmp_t.fresh file_s 1 3).three_way sample_env cut_c
      = .ok (.gt, cmp_s1, cut_c1.close_file) ∧
    cut_c1.close_file.cerr_lines = cut_c.cerr_lines + 1 ∧
    (∃ r, (file_cmp_t.fresh file_s 1 3).three_way sample_env cut_c = .ok r) ∧
    (file_cmp_t.fresh file_s 1 3).three_way sample_env cut_c ≠ .error .out_of_range :=
  ⟨by decide, by decide, by decide!, by decide,
    C10_accesses_in_bounds sample_env (by decide) (file_cmp_t.fresh file_s 1 3) cut_c
      (Or.inl (by decide))⟩

/-! ## The digest cache -/

theorem sample_pq :
    (file_cmp_t.fresh file_p 1 2).three_way sample_env (file_cmp_t.fresh file_q 1 2)
      = .ok (.lt, cmp_p1, cmp_q1) := by
  decide!

theorem reachable_p1 : reachable sample_env cmp_p1 :=
  reachable.lhs _ _ _ _ _ (reachable.fresh file_p 1 2 (by decide)) sample_pq

/-- C7: in a reachable comparator that has reported no read error, the digest
cached at index `i` is the seeded hash of the bytes `[o_i, o_i + s_i)` of the
file, the remaining byte count and the sizes of the cached blocks add up to
the file size, and a later comparison on either side that reports no read
error leaves every cached digest in place. -/
theorem C7_cached_digests (env : env_t) (hb : 0 < env.buf_sz) (c : file_cmp_t)
    (hr : reachable env c) (h0 : c.cerr_lines = 0) :
    (∀ i, i < c._file_hashes.length →
      c._file_hashes[i]? = some (env.XXH3_128bits
        ((c._file_entry.data.drop (spec_off c._file_entry.size i)).take
          (spec_sz c._file_entry.size i)))) ∧
    c._remain_sz + ((List.range c._file_hashes.length).map (spec_sz c._file_entry.size)).sum
      = c._file_entry.size ∧
    (∀ (p : file_cmp_t) (o : Ordering) (c' p' : file_cmp_t),
      (c.three_way env p = .ok (o, c', p') ∨ p.three_way env c = .ok (o, p', c')) →
      c'.cerr_lines = 0 →
      ∀ i, i < c._file_hashes.length → c'._file_hashes[i]? = c._file_hashes[i]?) := by
  obtain ⟨_, hs⟩ := reachable_sound env hb c hr
  obtain ⟨hc, hrem, _⟩ := hs h0
  refine ⟨fun i hi => cached_get env c hc i hi, ?_, ?_⟩
  · rw [← spec_off_eq_sum]; exact hrem
  · intro p o c' p' hcall h0' i hi
    have hk : keeps c c' := by
      rcases hcall with h | h
      · exact (three_way_keeps env hb c p o c' p' h).1
      · exact (three_way_keeps env hb p c o p' c' h).2
    obtain ⟨t, ht⟩ := hk.2.2.2.2 (by omega)
    rw [← ht, List.getElem?_append_left hi]

theorem C7_cached_digests_witness :
    0 < sample_env.buf_sz ∧ reachable sample_env cmp_p1 ∧ cmp_p1.cerr_lines = 0 ∧
    cmp_p1._file_hashes.length = 2 ∧
    (∀ i, i < cmp_p1._file_hashes.length →
      cmp_p1._file_hashes[i]? = some (sample_env.XXH3_128bits
        ((cmp_p1._file_entry.data.drop (spec_off cmp_p1._file_entry.size i)).take
          (spec_sz cmp_p1._file_entry.size i)))) ∧
    cmp_p1._remain_sz +
        ((List.range cmp_p1._file_hashes.length).map (spec_sz cmp_p1._file_entry.size)).sum
      = cmp_p1._file_entry.size ∧
    (∀ (p : file_cmp_t) (o : Ordering) (c' p' : file_cmp_t),
      (cmp_p1.three_way sample_env p = .ok (o, c', p') ∨
        p.three_way sample_env cmp_p1 = .ok (o, p', c')) →
      c'.cerr_lines = 0 →
      ∀ i, i < cmp_p1._file_hashes.length → c'._file_hashes[i]? = cmp_p1._file_hashes[i]?) :=
  ⟨by decide, reachable_p1, by decide, by decide,
    C7_cached_digests sample_env (by decide) cmp_p1 reachable_p1 (by decide)⟩

/-! ## The ordering returned -/

/-- C1: for reachable comparators with the same `_max_hash` that are not hard
links of one file, `operator<=>` returns; files that deliver all their bytes
lead to no read error; and when neither side has reported a read error, the
ordering returned is the (`high64`, `low64`) lexicographic ordering of the two
block digests at the smallest index below `_max_hash` where they differ (both
caches then hold these digests at that index), and `equal` when the block
digests agree at every index below `_max_hash`. -/
theorem C1_first_differing_digest (env : env_t) (hb : 0 < env.buf_sz) (a b : file_cmp_t)
    (ra : reachable env a) (rb : reachable env b) (hm : a._max_hash = b._max_hash)
    (hl : a.hard_linked env b = false) :
    ∃ o a' b', a.three_way env b = .ok (o, a', b') ∧
      (readable a._file_entry → a'.cerr_lines = 0) ∧
      (readable b._file_entry → b'.cerr_lines = 0) ∧
      (a'.cerr_lines = 0 → b'.cerr_lines = 0 →
        (∀ i, i < a._max_hash →
          (∀ j, j < i → blk_digest env a._file_entry j = blk_digest env b._file_entry j) →
          blk_digest env a._file_entry i ≠ blk_digest env b._file_entry i →
          o = digest_order (blk_digest env a._file_entry i) (blk_digest env b._file_entry i) ∧
          o ≠ .eq ∧
          a'._file_hashes[i]? = some (blk_digest env a._file_entry i) ∧
          b'._file_hashes[i]? = some (blk_digest env b._file_entry i)) ∧
        ((∀ j, j < a._max_hash →
            blk_digest env a._file_entry j = blk_digest env b._file_entry j) → o = .eq)) := by
  obtain ⟨o, a', b', h, ea, eb, h1, h2, hres⟩ :=
    three_way_reachable env hb a b ra rb (by omega) hl
  refine ⟨o, a', b', h, h1, h2, ?_⟩
  intro ha0 hb0
  obtain ⟨ho, ca, cb, la, lb⟩ := hres ha0 hb0
  constructor
  · intro i hi hsame hdiff
    obtain ⟨q1, q2⟩ := lex_order_first _ _ a._max_hash 0 i (by omega) (by omega)
      (fun j _ hj => hsame j hj) hdiff
    rw [q2] at la lb
    rw [q1] at ho
    refine ⟨ho, ?_, ?_, ?_⟩
    · rw [ho]
      exact fun hc => hdiff ((digest_order_eq_iff _ _).1 hc)
    · rw [← ea]
      exact cached_get env a' ca i (by omega)
    · rw [← eb]
      exact cached_get env b' cb i (by omega)
  · intro hsame
    rw [ho]
    exact (lex_order_none _ _ a._max_hash 0 (fun j _ hj => hsame j (by omega))).1

theorem readable_p : readable file_p := ⟨by decide!, by decide⟩

theorem readable_q : readable file_q := ⟨by decide!, by decide⟩

theorem C1_first_differing_digest_witness :
    0 < sample_env.buf_sz ∧
    reachable sample_env (file_cmp_t.fresh file_p 1 2) ∧
    reachable sample_env (file_cmp_t.fresh file_q 1 2) ∧
    (file_cmp_t.fresh file_p 1 2)._max_hash = (file_cmp_t.fresh file_q 1 2)._max_hash ∧
    (file_cmp_t.fresh file_p 1 2).hard_linked sample_env (file_cmp_t.fresh file_q 1 2) = false ∧
    readable file_p ∧ readable file_q ∧
    blk_digest sample_env file_p 0 = blk_digest sample_env file_q 0 ∧
    blk_digest sample_env file_p 1 ≠ blk_digest sample_env file_q 1 ∧
    (file_cmp_t.fresh file_p 1 2).three_way sample_env (file_cmp_t.fresh file_q 1 2)
      = .ok (.lt, cmp_p1, cmp_q1) ∧
    ∃ o, returns sample_env (file_cmp_t.fresh file_p 1 2) (file_cmp_t.fresh file_q 1 2) o ∧
      o = digest_order (blk_digest sample_env file_p 1) (blk_digest sample_env file_q 1) := by
  refine ⟨by decide, reachable.fresh _ _ _ (by decide), reachable.fresh _ _ _ (by decide),
    by decide, by decide, readable_p, readable_q,
    by decide!, by decide!, by decide!, ?_⟩
  obtain ⟨o, a', b', h, h1, h2, hres⟩ := C1_first_differing_digest sample_env (by decide)
    (file_cmp_t.fresh file_p 1 2) (file_cmp_t.fresh file_q 1 2)
    (reachable.fresh _ _ _ (by decide)) (reachable.fresh _ _ _ (by decide))
    (by decide) (by decide)
  refine ⟨o, ⟨a', b', h⟩, ?_⟩
  refine ((hres (h1 readable_p) (h2 readable_q)).1 1 (by decide) ?_ (by decide!)).1
  intro j hj
  have : j = 0 := by omega
  subst this
  decide!

/-- Why the statement about the left bound is made for comparisons without a
read error.  Two comparators over unreadable files, with bounds 1 and 2,
compare `equal`, and the short read pads the right cache to its own bound 2,
beyond the left bound.  And a left comparator whose file delivers 100 of its
512 recorded bytes compares `less` against a comparator over the same 100
bytes, although the digests of the bytes of block 0 agree: the padding digest
of the short read is what is compared. -/
theorem short_read_and_left_bound :
    dead_a.three_way sample_env dead_b = .ok (.eq, dead_a1, dead_b1) ∧
    dead_a._max_hash = 1 ∧ dead_b1._file_hashes.length = 2 ∧ dead_b1.cerr_lines = 1 ∧
    blk_digest sample_env part_a._file_entry 0 = blk_digest sample_env part_b._file_entry 0 ∧
    outcome (part_a.three_way sample_env part_b) = some .lt := by
  refine ⟨by decide, by decide, by decide, by decide, by decide!, by decide!⟩

/-! ## How many blocks a comparison hashes -/

/-- C5: two fresh comparators with the same `_max_hash = m` over two files of
one size that deliver all their bytes, are not hard links of one file, agree on
all bytes before block `i` and have different digests of block `i < m`:
`operator<=>` returns an ordering other than `equal`, reports no read error,
and leaves in each cache exactly the digests of the blocks `0, ..., i`. -/
theorem C5_blocks_hashed (env : env_t) (hb : 0 < env.buf_sz) (ea eb : directory_entry)
    (hla hlb m i : Nat) (hsz : ea.size = eb.size) (hra : readable ea) (hrb : readable eb)
    (hi : i < m)
    (hsame : ea.data.take (spec_off ea.size i) = eb.data.take (spec_off ea.size i))
    (hdiff : blk_digest env ea i ≠ blk_digest env eb i)
    (hl : (file_cmp_t.fresh ea hla m).hard_linked env (file_cmp_t.fresh eb hlb m) = false) :
    ∃ o a' b',
      (file_cmp_t.fresh ea hla m).three_way env (file_cmp_t.fresh eb hlb m) = .ok (o, a', b') ∧
      o ≠ .eq ∧ o = digest_order (blk_digest env ea i) (blk_digest env eb i) ∧
      a'.cerr_lines = 0 ∧ b'.cerr_lines = 0 ∧
      a'._file_hashes.length = i + 1 ∧ b'._file_hashes.length = i + 1 ∧
      a'._file_hashes = (List.range (i + 1)).map (blk_digest env ea) ∧
      b'._file_hashes = (List.range (i + 1)).map (blk_digest env eb) := by
  have ra : reachable env (file_cmp_t.fresh ea hla m) :=
    reachable.fresh ea hla m (by have := hra.2; omega)
  have rb : reachable env (file_cmp_t.fresh eb hlb m) :=
    reachable.fresh eb hlb m (by have := hrb.2; omega)
  obtain ⟨o, a', b', h, e1, e2, h1, h2, hres⟩ :=
    three_way_reachable env hb _ _ ra rb (le_refl _) hl
  have ha0 := h1 hra
  have hb0 := h2 hrb
  obtain ⟨ho, ca, cb, la, lb⟩ := hres ha0 hb0
  have hagree : ∀ j, 0 ≤ j → j < i → blk_digest env ea j = blk_digest env eb j := by
    intro j _ hj
    unfold blk_digest
    rw [blk_bytes_eq_of_take ea eb hsz (spec_off ea.size i) j hsame
      (spec_off_mono ea.size (j + 1) i (by omega))]
  obtain ⟨q1, q2⟩ := lex_order_first (blk_digest env ea) (blk_digest env eb) m 0 i
    (by omega) (by omega) hagree hdiff
  have hA : (file_cmp_t.fresh ea hla m)._file_entry = ea := rfl
  have hB : (file_cmp_t.fresh eb hlb m)._file_entry = eb := rfl
  have hAm : (file_cmp_t.fresh ea hla m)._max_hash = m := rfl
  have hAl : (file_cmp_t.fresh ea hla m)._file_hashes.length = 0 := rfl
  have hBl : (file_cmp_t.fresh eb hlb m)._file_hashes.length = 0 := rfl
  rw [hA, hB, hAm, q1] at ho
  rw [hA, hB, hAm, hAl, q2] at la
  rw [hA, hB, hAm, hBl, q2] at lb
  have la' : a'._file_hashes.length = i + 1 := by omega
  have lb' : b'._file_hashes.length = i + 1 := by omega
  refine ⟨o, a', b', h, ?_, ho, ha0, hb0, la', lb', ?_, ?_⟩
  · rw [ho]
    exact fun hc => hdiff ((digest_order_eq_iff _ _).1 hc)
  · exact cached_eq_map env a' ea (i + 1) ca (e1.trans hA) la'
  · exact cached_eq_map env b' eb (i + 1) cb (e2.trans hB) lb'

theorem readable_a : readable file_a := ⟨by decide!, by decide⟩

theorem readable_b : readable file_b := ⟨by decide!, by decide⟩

theorem sample_ab :
    (file_cmp_t.fresh file_a 1 2).three_way sample_env (file_cmp_t.fresh file_b 1 2)
      = .ok (.gt, cmp_a1, cmp_b1) := by
  decide!

theorem C5_blocks_hashed_witness :
    0 < sample_env.buf_sz ∧ file_a.size = file_b.size ∧ readable file_a ∧ readable file_b ∧
    file_a.data.take 600 = file_b.data.take 600 ∧ file_a.data[600]? ≠ file_b.data[600]? ∧
    spec_off file_a.size 1 = 512 ∧ spec_off file_a.size 2 = 1000 ∧
    file_a.data.take (spec_off file_a.size 1) = file_b.data.take (spec_off file_a.size 1) ∧
    blk_digest sample_env file_a 1 ≠ blk_digest sample_env file_b 1 ∧
    (file_cmp_t.fresh file_a 1 2).hard_linked sample_env (file_cmp_t.fresh file_b 1 2) = false ∧
    (file_cmp_t.fresh file_a 1 2).three_way sample_env (file_cmp_t.fresh file_b 1 2)
      = .ok (.gt, cmp_a1, cmp_b1) ∧
    cmp_a1._file_hashes.length = 2 ∧ cmp_b1._file_hashes.length = 2 ∧
    ∃ o a' b',
      (file_cmp_t.fresh file_a 1 2).three_way sample_env (file_cmp_t.fresh file_b 1 2)
        = .ok (o, a', b') ∧
      o ≠ .eq ∧ o = digest_order (blk_digest sample_env file_a 1) (blk_digest sample_env file_b 1) ∧
      a'.cerr_lines = 0 ∧ b'.cerr_lines = 0 ∧
      a'._file_hashes.length = 1 + 1 ∧ b'._file_hashes.length = 1 + 1 ∧
      a'._file_hashes = (List.range (1 + 1)).map (blk_digest sample_env file_a) ∧
      b'._file_hashes = (List.range (1 + 1)).map (blk_digest sample_env file_b) :=
  ⟨by decide, by decide, readable_a, readable_b, by decide!, by decide!, by decide!, by decide!,
    by decide!, by decide!, by decide, sample_ab, by decide, by decide,
    C5_blocks_hashed sample_env (by decide) file_a file_b 1 1 2 1 (by decide) readable_a
      readable_b (by decide) (by decide!) (by decide!) (by decide)⟩

/-! ## The direction of the ordering -/

theorem exists_first_diff : ∀ (l1 l2 : List Nat), l1.length = l2.length → l1 ≠ l2 →
    ∃ k, k < l1.length ∧ l1.take k = l2.take k ∧ l1.getD k 0 ≠ l2.getD k 0 := by
  intro l1
  induction l1 with
  | nil =>
    intro l2 hlen hne
    cases l2 with
    | nil => exact absurd rfl hne
    | cons y ys => simp at hlen
  | cons x xs ih =>
    intro l2 hlen hne
    cases l2 with
    | nil => simp at hlen
    | cons y ys =>
      by_cases hxy : x = y
      · subst hxy
        have hne' : xs ≠ ys := fun h => hne (by rw [h])
        obtain ⟨k, h1, h2, h3⟩ := ih ys (by simpa using hlen) hne'
        refine ⟨k + 1, by simpa using h1, by simp [h2], ?_⟩
        simpa using h3
      · exact ⟨0, by simp, by simp, by simpa using hxy⟩

/-- There are more 17-byte strings than 128-bit digests: two different ones
have the same digest, whatever the digest function. -/
theorem digest_collision (env : env_t)
    (hbound : ∀ bs, (env.XXH3_128bits bs).low64 < 2 ^ 64 ∧ (env.XXH3_128bits bs).high64 < 2 ^ 64) :
    ∃ l1 l2 : List Nat, l1.length = 17 ∧ l2.length = 17 ∧ (∀ x ∈ l1, x < 256) ∧
      (∀ x ∈ l2, x < 256) ∧ l1 ≠ l2 ∧ env.XXH3_128bits l1 = env.XXH3_128bits l2 := by
  let bytes : (Fin 17 → Fin 256) → List Nat := fun v => List.ofFn (fun i => (v i).val)
  let f : (Fin 17 → Fin 256) → Fin (2 ^ 64) × Fin (2 ^ 64) := fun v =>
    (⟨(env.XXH3_128bits (bytes v)).low64, (hbound _).1⟩,
     ⟨(env.XXH3_128bits (bytes v)).high64, (hbound _).2⟩)
  obtain ⟨x, y, hne, hxy⟩ := Fintype.exists_ne_map_eq_of_card_lt f (by
    simp only [Fintype.card_prod, Fintype.card_fin, Fintype.card_fun]
    norm_num)
  refine ⟨bytes x, bytes y, by simp [bytes], by simp [bytes], ?_, ?_, ?_, ?_⟩
  · intro b hb
    simp only [bytes, List.mem_ofFn, Set.mem_range] at hb
    obtain ⟨i, rfl⟩ := hb
    exact (x i).isLt
  · intro b hb
    simp only [bytes, List.mem_ofFn, Set.mem_range] at hb
    obtain ⟨i, rfl⟩ := hb
    exact (y i).isLt
  · intro h
    apply hne
    have := List.ofFn_injective h
    funext i
    exact Fin.ext (congrFun this i)
  · simp only [f, Prod.mk.injEq, Fin.mk.injEq] at hxy
    cases h1 : env.XXH3_128bits (bytes x)
    cases h2 : env.XXH3_128bits (bytes y)
    rw [h1, h2] at hxy
    simp only at hxy
    rw [hxy.1, hxy.2]

/-- Two fresh one-block comparators with link count 1 over 17-byte files with
the same digest compare `equal`. -/
theorem collision_equal (env : env_t) (hb : 0 < env.buf_sz) (l1 l2 : List Nat)
    (h1 : l1.length = 17) (h2 : l2.length = 17)
    (hd : env.XXH3_128bits l1 = env.XXH3_128bits l2) :
    returns env (file_cmp_t.fresh ⟨1, 17, l1⟩ 1 1) (file_cmp_t.fresh ⟨2, 17, l2⟩ 1 1) .eq := by
  have hl : (file_cmp_t.fresh ⟨1, 17, l1⟩ 1 1).hard_linked env
      (file_cmp_t.fresh ⟨2, 17, l2⟩ 1 1) = false := by
    simp [file_cmp_t.hard_linked, file_cmp_t.fresh]
  obtain ⟨o, a', b', h, _, _, k1, k2, hres⟩ := three_way_reachable env hb
    (file_cmp_t.fresh ⟨1, 17, l1⟩ 1 1) (file_cmp_t.fresh ⟨2, 17, l2⟩ 1 1)
    (reachable.fresh _ _ _ (by norm_num)) (reachable.fresh _ _ _ (by norm_num)) (le_refl _) hl
  have r1 : readable (⟨1, 17, l1⟩ : directory_entry) := ⟨by simp [h1], by norm_num⟩
  have r2 : readable (⟨2, 17, l2⟩ : directory_entry) := ⟨by simp [h2], by norm_num⟩
  obtain ⟨ho, _⟩ := hres (k1 r1) (k2 r2)
  have hb1 : blk_bytes ⟨1, 17, l1⟩ 0 = l1 := by
    simp [blk_bytes, spec_off, spec_sz, spec_nominal, hash_blk_sz, h1]
  have hb2 : blk_bytes ⟨2, 17, l2⟩ 0 = l2 := by
    simp [blk_bytes, spec_off, spec_sz, spec_nominal, hash_blk_sz, h2]
  have hq := (lex_order_none (blk_digest env ⟨1, 17, l1⟩) (blk_digest env ⟨2, 17, l2⟩) 1 0
    (fun j _ hj => by
      have : j = 0 := by omega
      subst this
      unfold blk_digest
      rw [hb1, hb2, hd])).1
  have hm : (file_cmp_t.fresh ⟨1, 17, l1⟩ 1 1)._max_hash = 1 := rfl
  rw [hm] at ho
  have hA : (file_cmp_t.fresh ⟨1, 17, l1⟩ 1 1)._file_entry = ⟨1, 17, l1⟩ := rfl
  have hB : (file_cmp_t.fresh ⟨2, 17, l2⟩ 1 1)._file_entry = ⟨2, 17, l2⟩ := rfl
  rw [hA, hB, hq] at ho
  rw [ho] at h
  exact ⟨a', b', h⟩

/-- C6 as stated fails.  For no digest function with 64-bit halves does the
direction of the result follow the first differing byte for all pairs of
files: two different 17-byte files with the same digest compare `equal`.  And
with the sample digest function the two 1000-byte files that first differ at
offset 600, where the left file has the smaller byte, compare `greater`. -/
theorem C6_counterexample :
    (¬ ∃ env : env_t, 0 < env.buf_sz ∧
      (∀ bs, (env.XXH3_128bits bs).low64 < 2 ^ 64 ∧ (env.XXH3_128bits bs).high64 < 2 ^ 64) ∧
      C6_claim env) ∧
    (file_a.size = file_b.size ∧ file_a.data.take 600 = file_b.data.take 600 ∧
      file_a.data.getD 600 0 < file_b.data.getD 600 0 ∧
      (file_cmp_t.fresh file_a 1 2).three_way sample_env (file_cmp_t.fresh file_b 1 2)
        = .ok (.gt, cmp_a1, cmp_b1)) := by
  constructor
  · rintro ⟨env, hb, hbound, hclaim⟩
    obtain ⟨l1, l2, h1, h2, m1, m2, hne, hd⟩ := digest_collision env hbound
    obtain ⟨k, hk, htake, hget⟩ := exists_first_diff l1 l2 (by omega) hne
    have heq := collision_equal env hb l1 l2 h1 h2 hd
    obtain ⟨c1, c2⟩ := hclaim ⟨1, 17, l1⟩ ⟨2, 17, l2⟩ 1 k rfl h1 h2 (by norm_num) m1 m2
      (by simp [spec_off, spec_nominal, hash_blk_sz]) htake (by simpa [h1] using hk)
    rcases Nat.lt_or_gt_of_ne hget with hlt | hgt
    · exact absurd (returns_unique env _ _ _ _ heq (c1 hlt)) (by decide)
    · exact absurd (returns_unique env _ _ _ _ heq (c2 hgt)) (by decide)
  · exact ⟨by decide, by decide!, by decide!, by decide!⟩

/-- C6, amended: the direction of the result follows the block digests, not
the bytes.  For two fresh comparators with the same `_max_hash = m`, not hard
links of one file, over two files of one size that deliver all their bytes and
agree before offset `k`, where `k` is not before the start of block `i < m`
and the digests of block `i` differ: `operator<=>` returns the
(`high64`, `low64`) lexicographic ordering of the two digests of block `i`,
`less` exactly when the left digest is the smaller one and `greater` exactly
when it is the larger one. -/
theorem C6_direction_of_digests (env : env_t) (hb : 0 < env.buf_sz) (ea eb : directory_entry)
    (hla hlb m k i : Nat) (hsz : ea.size = eb.size) (hra : readable ea) (hrb : readable eb)
    (hk : ea.data.take k = eb.data.take k) (hki : spec_off ea.size i ≤ k) (hi : i < m)
    (hdiff : blk_digest env ea i ≠ blk_digest env eb i)
    (hl : (file_cmp_t.fresh ea hla m).hard_linked env (file_cmp_t.fresh eb hlb m) = false) :
    returns env (file_cmp_t.fresh ea hla m) (file_cmp_t.fresh eb hlb m)
      (digest_order (blk_digest env ea i) (blk_digest env eb i)) ∧
    (returns env (file_cmp_t.fresh ea hla m) (file_cmp_t.fresh eb hlb m) .lt ↔
      digest_order (blk_digest env ea i) (blk_digest env eb i) = .lt) ∧
    (returns env (file_cmp_t.fresh ea hla m) (file_cmp_t.fresh eb hlb m) .gt ↔
      digest_order (blk_digest env ea i) (blk_digest env eb i) = .gt) ∧
    ¬ returns env (file_cmp_t.fresh ea hla m) (file_cmp_t.fresh eb hlb m) .eq := by
  have ra : reachable env (file_cmp_t.fresh ea hla m) :=
    reachable.fresh ea hla m (by have := hra.2; omega)
  have rb : reachable env (file_cmp_t.fresh eb hlb m) :=
    reachable.fresh eb hlb m (by have := hrb.2; omega)
  obtain ⟨o, a', b', h, _, _, h1, h2, hres⟩ :=
    three_way_reachable env hb _ _ ra rb (le_refl _) hl
  obtain ⟨ho, _⟩ := hres (h1 hra) (h2 hrb)
  have hagree : ∀ j, 0 ≤ j → j < i → blk_digest env ea j = blk_digest env eb j := by
    intro j _ hj
    unfold blk_digest
    rw [blk_bytes_eq_of_take ea eb hsz k j hk
      (le_trans (spec_off_mono ea.size (j + 1) i (by omega)) hki)]
  obtain ⟨q1, _⟩ := lex_order_first (blk_digest env ea) (blk_digest env eb) m 0 i
    (by omega) (by omega) hagree hdiff
  have hA : (file_cmp_t.fresh ea hla m)._file_entry = ea := rfl
  have hB : (file_cmp_t.fresh eb hlb m)._file_entry = eb := rfl
  have hAm : (file_cmp_t.fresh ea hla m)._max_hash = m := rfl
  rw [hA, hB, hAm, q1] at ho
  have hret : returns env (file_cmp_t.fresh ea hla m) (file_cmp_t.fresh eb hlb m)
      (digest_order (blk_digest env ea i) (blk_digest env eb i)) := by
    rw [← ho]; exact ⟨a', b', h⟩
  have hne : digest_order (blk_digest env ea i) (blk_digest env eb i) ≠ .eq :=
    fun hc => hdiff ((digest_order_eq_iff _ _).1 hc)
  refine ⟨hret, ⟨fun hr => ?_, fun he => ?_⟩, ⟨fun hr => ?_, fun he => ?_⟩, fun hr => ?_⟩
  · exact returns_unique env _ _ _ _ hret hr
  · rw [← he]; exact hret
  · exact returns_unique env _ _ _ _ hret hr
  · rw [← he]; exact hret
  · exact hne (returns_unique env _ _ _ _ hret hr)

theorem C6_direction_of_digests_witness :
    0 < sample_env.buf_sz ∧ file_a.size = file_b.size ∧ readable file_a ∧ readable file_b ∧
    file_a.data.take 600 = file_b.data.take 600 ∧ spec_off file_a.size 1 ≤ 600 ∧
    blk_digest sample_env file_a 1 ≠ blk_digest sample_env file_b 1 ∧
    (file_cmp_t.fresh file_a 1 2).hard_linked sample_env (file_cmp_t.fresh file_b 1 2) = false ∧
    digest_order (blk_digest sample_env file_a 1) (blk_digest sample_env file_b 1) = .gt ∧
    returns sample_env (file_cmp_t.fresh file_a 1 2) (file_cmp_t.fresh file_b 1 2)
      (digest_order (blk_digest sample_env file_a 1) (blk_digest sample_env file_b 1)) :=
  ⟨by decide, by decide, readable_a, readable_b, by decide!, by decide!, by decide!, by decide,
    by decide!,
    (C6_direction_of_digests sample_env (by decide) file_a file_b 1 1 2 600 1 (by decide)
      readable_a readable_b (by decide!) (by decide!) (by decide) (by decide!) (by decide)).1⟩

/-! ## The ordering as a strict weak ordering -/

theorem digest_order_swap (x y : XXH128_hash_t) :
    digest_order y x = (digest_order x y).swap := by
  unfold digest_order
  split_ifs <;> first | rfl | omega

theorem digest_order_lt_trans (x y z : XXH128_hash_t) (h1 : digest_order x y = .lt)
    (h2 : digest_order y z = .lt) : digest_order x z = .lt := by
  unfold digest_order at *
  split_ifs at h1 h2 ⊢ <;> first | rfl | omega

theorem lex_order_swap (da db : Nat → XXH128_hash_t) :
    ∀ n i, lex_order db da n i = (lex_order da db n i).swap := by
  intro n
  induction n with
  | zero => intro i; rfl
  | succ n ih =>
    intro i
    rw [lex_order, lex_order, digest_order_swap (da i) (db i)]
    by_cases h : digest_order (da i) (db i) = .eq
    · rw [if_neg (by rw [h]; decide), if_neg (not_not.2 h)]
      exact ih (i + 1)
    · rw [if_pos (by cases hd : digest_order (da i) (db i) <;> simp_all [Ordering.swap]),
        if_pos h]

theorem lex_order_lt_trans (da db dc : Nat → XXH128_hash_t) :
    ∀ n i, lex_order da db n i = .lt → lex_order db dc n i = .lt → lex_order da dc n i = .lt := by
  intro n
  induction n with
  | zero => intro i h; simp [lex_order] at h
  | succ n ih =>
    intro i h1 h2
    rw [lex_order] at h1 h2 ⊢
    by_cases hab : digest_order (da i) (db i) = .eq
    · have e : da i = db i := (digest_order_eq_iff _ _).1 hab
      rw [if_neg (not_not.2 hab)] at h1
      rw [e]
      by_cases hbc : digest_order (db i) (dc i) = .eq
      · rw [if_neg (not_not.2 hbc)] at h2 ⊢
        exact ih (i + 1) h1 h2
      · rw [if_pos hbc] at h2 ⊢
        exact h2
    · rw [if_pos hab] at h1
      by_cases hbc : digest_order (db i) (dc i) = .eq
      · have e : db i = dc i := (digest_order_eq_iff _ _).1 hbc
        rw [← e, if_pos hab]
        exact h1
      · rw [if_pos hbc] at h2
        have := digest_order_lt_trans _ _ _ h1 h2
        rw [if_pos (by rw [this]; decide)]
        exact this

theorem lex_order_eq_iff (da db : Nat → XXH128_hash_t) :
    ∀ n i, lex_order da db n i = .eq ↔ ∀ j, i ≤ j → j < i + n → da j = db j := by
  intro n
  induction n with
  | zero => intro i; simp [lex_order]; intro j h1 h2; omega
  | succ n ih =>
    intro i
    rw [lex_order]
    by_cases h : digest_order (da i) (db i) = .eq
    · have e : da i = db i := (digest_order_eq_iff _ _).1 h
      rw [if_neg (not_not.2 h), ih (i + 1)]
      constructor
      · intro hall j h1 h2
        by_cases hj : j = i
        · rw [hj]; exact e
        · exact hall j (by omega) (by omega)
      · intro hall j h1 h2
        exact hall j (by omega) (by omega)
    · rw [if_pos h]
      constructor
      · intro hc; exact absurd hc h
      · intro hall
        exact absurd ((digest_order_eq_iff _ _).2 (hall i (le_refl _) (by omega))) h

/-- C4 as stated fails when the set holds files of different sizes.  A
512-byte file gets one block, the 513-byte files that start with the same 512
bytes get two, each bound covering its file.  The short file compares `equal`
to both long files, the long file `file_p` compares `greater` than the short
one, so the converse fails; and the two long files, both equivalent to the
short one under `less`, compare `less`: the equivalence is not transitive. -/
theorem C4_counterexample :
    spec_off file_h.size 1 = file_h.size ∧ spec_off file_p.size 2 = file_p.size ∧
    spec_off file_q.size 2 = file_q.size ∧
    readable file_h ∧ readable file_p ∧ readable file_q ∧
    outcome ((file_cmp_t.fresh file_h 1 1).three_way sample_env (file_cmp_t.fresh file_p 1 2))
      = some .eq ∧
    outcome ((file_cmp_t.fresh file_p 1 2).three_way sample_env (file_cmp_t.fresh file_h 1 1))
      = some .gt ∧
    outcome ((file_cmp_t.fresh file_h 1 1).three_way sample_env (file_cmp_t.fresh file_q 1 2))
      = some .eq ∧
    outcome ((file_cmp_t.fresh file_q 1 2).three_way sample_env (file_cmp_t.fresh file_h 1 1))
      = some .gt ∧
    outcome ((file_cmp_t.fresh file_p 1 2).three_way sample_env (file_cmp_t.fresh file_q 1 2))
      = some .lt := by
  refine ⟨by decide!, by decide!, by decide!, ⟨by decide!, by decide⟩, readable_p, readable_q,
    by decide!, by decide!, by decide!, by decide!, by decide!⟩

/-- C4, amended: among reachable comparators that all have the same
`_max_hash`, over files that deliver all their bytes, the identity test
relating only comparators over the same bytes, `operator<=>` always returns,
whatever the caches hold; comparators over the same bytes compare `equal`; the
result of `b <=> a` is the converse of the result of `a <=> b`; `less` is
transitive and `equal` is transitive. -/
theorem C4_order_among_equal_bounds (env : env_t) (hb : 0 < env.buf_sz) (a b c : file_cmp_t)
    (ra : reachable env a) (rb : reachable env b) (rc : reachable env c)
    (hra : readable a._file_entry) (hrb : readable b._file_entry) (hrc : readable c._file_entry)
    (hab : a._max_hash = b._max_hash) (hbc : b._max_hash = c._max_hash)
    (cab : consistent env a b) (cba : consistent env b a) (cbc : consistent env b c)
    (cac : consistent env a c) :
    (∃ o, returns env a b o) ∧
    (a._file_entry.size = b._file_entry.size → a._file_entry.data = b._file_entry.data →
      returns env a b .eq) ∧
    (∀ o, returns env a b o → returns env b a o.swap) ∧
    (returns env a b .lt → returns env b c .lt → returns env a c .lt) ∧
    (returns env a b .eq → returns env b c .eq → returns env a c .eq) := by
  have lab := three_way_lex env hb a b ra rb hra hrb (by omega) cab
  have lba := three_way_lex env hb b a rb ra hrb hra (by omega) cba
  have lbc := three_way_lex env hb b c rb rc hrb hrc (by omega) cbc
  have lac := three_way_lex env hb a c ra rc hra hrc (by omega) cac
  refine ⟨⟨_, lab⟩, ?_, ?_, ?_, ?_⟩
  · intro hs hd
    rw [(lex_order_none _ _ a._max_hash 0
      (fun j _ _ => blk_digest_congr env _ _ hs hd j)).1] at lab
    exact lab
  · intro o ho
    have e := returns_unique env a b _ _ ho lab
    rw [e, ← lex_order_swap, hab]
    exact lba
  · intro h1 h2
    have e1 := returns_unique env a b _ _ lab h1
    have e2 := returns_unique env b c _ _ lbc h2
    rw [← hab] at e2
    rw [lex_order_lt_trans _ _ _ _ _ e1 e2] at lac
    exact lac
  · intro h1 h2
    have e1 := returns_unique env a b _ _ lab h1
    have e2 := returns_unique env b c _ _ lbc h2
    rw [← hab] at e2
    rw [lex_order_eq_iff] at e1 e2
    have e3 : lex_order (blk_digest env a._file_entry) (blk_digest env c._file_entry)
        a._max_hash 0 = .eq := by
      rw [lex_order_eq_iff]
      intro j h3 h4
      exact (e1 j h3 h4).trans (e2 j h3 h4)
    rw [e3] at lac
    exact lac

theorem sample_p1q :
    cmp_p1.three_way sample_env (file_cmp_t.fresh file_q 1 2) = .ok (.lt, cmp_p1, cmp_q1) := by
  decide!

theorem sample_qr :
    (file_cmp_t.fresh file_q 1 2).three_way sample_env (file_cmp_t.fresh file_r 1 2)
      = .ok (.lt, cmp_q1, cmp_r1) := by
  decide!

theorem C4_order_among_equal_bounds_witness :
    0 < sample_env.buf_sz ∧ reachable sample_env cmp_p1 ∧
    reachable sample_env (file_cmp_t.fresh file_q 1 2) ∧
    reachable sample_env (file_cmp_t.fresh file_r 1 2) ∧
    readable file_p ∧ readable file_q ∧ readable file_r ∧
    cmp_p1._max_hash = 2 ∧
    returns sample_env cmp_p1 (file_cmp_t.fresh file_q 1 2) .lt ∧
    returns sample_env (file_cmp_t.fresh file_q 1 2) (file_cmp_t.fresh file_r 1 2) .lt ∧
    returns sample_env cmp_p1 (file_cmp_t.fresh file_r 1 2) .lt ∧
    returns sample_env (file_cmp_t.fresh file_q 1 2) cmp_p1 .gt := by
  have rr : readable file_r := ⟨by decide!, by decide⟩
  have rq : reachable sample_env (file_cmp_t.fresh file_q 1 2) :=
    reachable.fresh _ _ _ (by decide)
  have rrr : reachable sample_env (file_cmp_t.fresh file_r 1 2) :=
    reachable.fresh _ _ _ (by decide)
  have h := C4_order_among_equal_bounds sample_env (by decide) cmp_p1
    (file_cmp_t.fresh file_q 1 2) (file_cmp_t.fresh file_r 1 2) reachable_p1 rq rrr
    readable_p readable_q rr (by decide) (by decide)
    (fun h => absurd h (by decide)) (fun h => absurd h (by decide))
    (fun h => absurd h (by decide)) (fun h => absurd h (by decide))
  have hpq : returns sample_env cmp_p1 (file_cmp_t.fresh file_q 1 2) .lt := ⟨_, _, sample_p1q⟩
  have hqr : returns sample_env (file_cmp_t.fresh file_q 1 2) (file_cmp_t.fresh file_r 1 2) .lt :=
    ⟨_, _, sample_qr⟩
  exact ⟨by decide, reachable_p1, rq, rrr, readable_p, readable_q, rr, by decide, hpq, hqr,
    h.2.2.2.1 hpq hqr, h.2.2.1 _ hpq⟩

end dedupe
